import Mathlib

/-!
Shallow embedding of the rich-text editor component of this repository
(`src/unnamed/part_000`, the `CKEditor` component; the sibling file
`src/client/components/CKEditor.tsx` shares the reconcile/emit logic
verbatim).  The editable region's DOM subtree is modelled as a tree of
nodes (`DNode`); the browser's DOM primitives that the component calls
(`Range.deleteContents`, `Range.insertNode`, `Range.surroundContents`,
`TreeWalker` over text nodes, `innerHTML` parse/serialize) are modelled
after the WHATWG DOM specification on the shapes of positions and ranges
this model represents.  HTML parsing (`innerHTML` assignment) is an
external browser collaborator and is passed in as an explicit function
parameter where the component uses it.
-/

/-- Block alignment values accepted by `setAlignment` in the source
(`'left' | 'center' | 'right'`). -/
inductive Align where
  | left
  | center
  | right
deriving DecidableEq, Repr

/-- A node of the editable region's DOM subtree: a text node, or an
element with a tag name, an optional `style.textAlign` value, a list of
further attributes (href/src/presentational style properties, kept as
opaque key/value pairs), and child nodes.  Elements the source creates:
`p`, `br`, `img`, `a`; arbitrary tags arrive via paste. -/
inductive DNode where
  | text (s : String) : DNode
  | elem (tag : String) (align : Option Align) (attrs : List (String × String))
      (children : List DNode) : DNode

/-- JavaScript `String.prototype.trim`: strip whitespace from both ends.
(Defined over the character list so that it evaluates by kernel
reduction; Lean's own `String.trim` is equivalent but does not reduce.) -/
def jsTrim (s : String) : String :=
  ⟨((s.data.dropWhile Char.isWhitespace).reverse.dropWhile Char.isWhitespace).reverse⟩

mutual
/-- Plain-text length of a node (`textContent.length`). -/
def textLenN : DNode → Nat
  | .text s => s.length
  | .elem _ _ _ cs => textLenL cs
/-- Plain-text length of a node list. -/
def textLenL : List DNode → Nat
  | [] => 0
  | n :: ns => textLenN n + textLenL ns
end

mutual
/-- Plain-text content of a node (`textContent` / `Range.toString` over a
whole node). -/
def textStrN : DNode → String
  | .text s => s
  | .elem _ _ _ cs => textStrL cs
/-- Plain-text content of a node list, in document order. -/
def textStrL : List DNode → String
  | [] => ""
  | n :: ns => textStrN n ++ textStrL ns
end

mutual
/-- The text nodes under a node in document (pre-)order: the sequence a
`TreeWalker(root, NodeFilter.SHOW_TEXT)` visits. -/
def textLeavesN : DNode → List String
  | .text s => [s]
  | .elem _ _ _ cs => textLeavesL cs
/-- Text leaves of a node list in document order. -/
def textLeavesL : List DNode → List String
  | [] => []
  | n :: ns => textLeavesN n ++ textLeavesL ns
end

mutual
/-- Paths (child-index sequences) of the text leaves of a node, in the
same order as `textLeavesN`. -/
def leafPathsN : DNode → List (List Nat)
  | .text _ => [[]]
  | .elem _ _ _ cs => leafPathsL cs 0
/-- Paths of the text leaves of a node list; `i` is the index of the
first node. -/
def leafPathsL : List DNode → Nat → List (List Nat)
  | [], _ => []
  | n :: ns, i => (leafPathsN n).map (fun p => i :: p) ++ leafPathsL ns (i + 1)
end

/-- Renders the modelled attributes of an element (its `text-align` style
value and the remaining attribute pairs) for serialization. -/
def attrText (al : Option Align) (ats : List (String × String)) : String :=
  (match al with
   | some .left => " style=TAleft"
   | some .center => " style=TAcenter"
   | some .right => " style=TAright"
   | none => "")
  ++ String.join (ats.map (fun kv => " " ++ kv.1 ++ "=" ++ kv.2))

mutual
/-- Serialization of a node to markup (the `innerHTML` getter, up to the
exact attribute syntax, which no claim depends on). -/
def serializeN : DNode → String
  | .text s => s
  | .elem t al ats cs => "<" ++ t ++ attrText al ats ++ ">" ++ serializeL cs ++ "</" ++ t ++ ">"
/-- Serialization of a node list (the editor's `innerHTML`). -/
def serializeL : List DNode → String
  | [] => ""
  | n :: ns => serializeN n ++ serializeL ns
end

/-- Node addressed by a child-index path from the editor root; `[]` is
the editor element itself, which is not a `DNode`, so it yields `none`. -/
def nodeAtL (ns : List DNode) : List Nat → Option DNode
  | [] => none
  | [i] => ns[i]?
  | i :: rest =>
    match ns[i]? with
    | some (.elem _ _ _ cs) => nodeAtL cs rest
    | _ => none

/-- Applies `f` to the child list of the element addressed by the path
(`[]` addresses the editor root's own child list); leaves the tree
unchanged if the path does not address an element. -/
def setChildrenAt : List Nat → (List DNode → List DNode) → List DNode → List DNode
  | [], f, ns => f ns
  | i :: rest, f, ns =>
    match ns[i]? with
    | some (.elem t al ats cs) => ns.set i (.elem t al ats (setChildrenAt rest f cs))
    | _ => ns

/-- Replaces the character data of the text node addressed by the path
(models `CharacterData.replaceData` during `Range.deleteContents`). -/
def setTextAt : List Nat → String → List DNode → List DNode
  | [], _, ns => ns
  | [i], s, ns =>
    match ns[i]? with
    | some (.text _) => ns.set i (.text s)
    | _ => ns
  | i :: rest, s, ns =>
    match ns[i]? with
    | some (.elem t al ats cs) => ns.set i (.elem t al ats (setTextAt rest s cs))
    | _ => ns

/-- Sets the `style.textAlign` of the element addressed by the path
(`blockElement.style.textAlign = alignment` in the source). -/
def setAlignAtPath : List Nat → Align → List DNode → List DNode
  | [], _, ns => ns
  | [i], a, ns =>
    match ns[i]? with
    | some (.elem t _ ats cs) => ns.set i (.elem t (some a) ats cs)
    | _ => ns
  | i :: rest, a, ns =>
    match ns[i]? with
    | some (.elem t al ats cs) => ns.set i (.elem t al ats (setAlignAtPath rest a cs))
    | _ => ns

/-- The tag names `setAlignment` treats as block elements, both in its
`querySelectorAll('p, div, h1, h2, h3, h4, h5, h6, li')` and in its
ancestor walk (`tagName === 'P' || … || tagName === 'LI'`; tag names are
stored lowercase here, the comparison is case-normalized). -/
def isBlockTag (t : String) : Bool :=
  t = "p" || t = "div" || t = "h1" || t = "h2" || t = "h3" || t = "h4" ||
  t = "h5" || t = "h6" || t = "li"

mutual
/-- Whether a node or any descendant is a block element
(`querySelectorAll(blockSelector).length > 0`). -/
def anyBlockN : DNode → Bool
  | .text _ => false
  | .elem t _ _ cs => isBlockTag t || anyBlockL cs
/-- Whether a node list contains any block element at any depth. -/
def anyBlockL : List DNode → Bool
  | [] => false
  | n :: ns => anyBlockN n || anyBlockL ns
end

mutual
/-- Sets `style.textAlign = a` on every block element at any depth (the
`blocks.forEach` over `querySelectorAll(blockSelector)`). -/
def alignBlocksN (a : Align) : DNode → DNode
  | .text s => .text s
  | .elem t al ats cs => .elem t (if isBlockTag t then some a else al) ats (alignBlocksL a cs)
/-- Function `alignBlocksN` over a node list. -/
def alignBlocksL (a : Align) : List DNode → List DNode
  | [] => []
  | n :: ns => alignBlocksN a n :: alignBlocksL a ns
end

mutual
/-- Checks that every block element at any depth carries `textAlign = a`. -/
def blocksAlignedN (a : Align) : DNode → Bool
  | .text _ => true
  | .elem t al _ cs => (!isBlockTag t || decide (al = some a)) && blocksAlignedL a cs
/-- Function `blocksAlignedN` over a node list. -/
def blocksAlignedL (a : Align) : List DNode → Bool
  | [] => true
  | n :: ns => blocksAlignedN a n && blocksAlignedL a ns
end

mutual
/-- Erases every element's `textAlign`; two trees with equal erasures
differ at most in alignment attributes. -/
def eraseAlignN : DNode → DNode
  | .text s => .text s
  | .elem t _ ats cs => .elem t none ats (eraseAlignL cs)
/-- Function `eraseAlignN` over a node list. -/
def eraseAlignL : List DNode → List DNode
  | [] => []
  | n :: ns => eraseAlignN n :: eraseAlignL ns
end

mutual
/-- Whether a node or any descendant carries an explicit `textAlign`
(the `querySelectorAll('[style*="text-align"]').length > 0` test of
`handleInput`). -/
def hasAlignN : DNode → Bool
  | .text _ => false
  | .elem _ al _ cs => al.isSome || hasAlignL cs
/-- Function `hasAlignN` over a node list. -/
def hasAlignL : List DNode → Bool
  | [] => false
  | n :: ns => hasAlignN n || hasAlignL ns
end

/-- The tags `handlePaste` strips from pasted markup
(`querySelectorAll('script, style, iframe, object, embed')`). -/
def isBannedTag (t : String) : Bool :=
  t = "script" || t = "style" || t = "iframe" || t = "object" || t = "embed"

mutual
/-- Removes every element with a stripped tag (with its whole subtree)
from a pasted node; returns the node as a singleton list, or `[]` if the
node itself is stripped. -/
def sanitizeN : DNode → List DNode
  | .text s => [.text s]
  | .elem t al ats cs => if isBannedTag t then [] else [.elem t al ats (sanitizeL cs)]
/-- Function `sanitizeN` over a node list. -/
def sanitizeL : List DNode → List DNode
  | [] => []
  | n :: ns => sanitizeN n ++ sanitizeL ns
end

mutual
/-- Whether a node and all descendants avoid the stripped tags. -/
def bannedFreeN : DNode → Bool
  | .text _ => true
  | .elem t _ _ cs => !isBannedTag t && bannedFreeL cs
/-- Function `bannedFreeN` over a node list. -/
def bannedFreeL : List DNode → Bool
  | [] => true
  | n :: ns => bannedFreeN n && bannedFreeL ns
end

/-- A DOM boundary point: the node addressed by `path` (with `[]` the
editor element itself) together with an offset — a character offset when
the node is a text node, a child index when it is an element. -/
structure Pos where
  path : List Nat
  off : Nat
deriving DecidableEq, Repr

/-- A DOM `Range`: a start and an end boundary point. -/
structure DRange where
  s : Pos
  e : Pos
deriving DecidableEq, Repr

/-- A collapsed range (caret) at a boundary point. -/
def caretAt (p : List Nat) (o : Nat) : DRange := ⟨⟨p, o⟩, ⟨p, o⟩⟩

/-- Function `Range.collapsed`. -/
def DRange.collapsed (r : DRange) : Bool := decide (r.s = r.e)

/-- The kind of node serving as a boundary point's container. -/
inductive ContainerK where
  | rootC
  | textC (s : String)
  | elemC
  | invalidC
deriving DecidableEq, Repr

/-- Classifies the container a path addresses. -/
def containerAt (ns : List DNode) (p : List Nat) : ContainerK :=
  match p with
  | [] => .rootC
  | _ =>
    match nodeAtL ns p with
    | some (.text s) => .textC s
    | some (.elem _ _ _ _) => .elemC
    | none => .invalidC

/-- Splits a nonempty path into the parent element's path and the node's
child index. -/
def parentAndIdx (p : List Nat) : Option (List Nat × Nat) :=
  match p.reverse with
  | [] => none
  | i :: rest => some (rest.reverse, i)

/-- Function `Range.deleteContents`, following the DOM specification on the range
shapes this model supports (see `rangeSupported`): a collapsed range is
a no-op; a range within one text node deletes the selected characters; a
range within one element's child list removes the covered children; a
range crossing from a text node in one root-level block to a text node
in a later root-level block truncates the two partially contained text
nodes, drops everything between, and collapses to the gap between the
two blocks.  Returns the new tree and the collapsed position. -/
def deleteContents (ns : List DNode) (r : DRange) : List DNode × Pos :=
  if r.s = r.e then (ns, r.s)
  else if r.s.path = r.e.path then
    match containerAt ns r.s.path with
    | .textC s => (setTextAt r.s.path (s.take r.s.off ++ s.drop r.e.off) ns, r.s)
    | .rootC | .elemC =>
      (setChildrenAt r.s.path (fun cs => cs.take r.s.off ++ cs.drop r.e.off) ns, r.s)
    | .invalidC => (ns, r.s)
  else
    match r.s.path, r.e.path with
    | [bi, ci], [bj, cj] =>
      if bi < bj then
        match ns[bi]?, ns[bj]? with
        | some (.elem t1 a1 at1 cs1), some (.elem t2 a2 at2 cs2) =>
          match cs1[ci]?, cs2[cj]? with
          | some (.text s1), some (.text s2) =>
            (ns.take bi
              ++ [.elem t1 a1 at1 (cs1.take ci ++ [.text (s1.take r.s.off)]),
                  .elem t2 a2 at2 (.text (s2.drop r.e.off) :: cs2.drop (cj + 1))]
              ++ ns.drop (bj + 1),
             ⟨[], bi + 1⟩)
          | _, _ => (ns, r.s)
        | _, _ => (ns, r.s)
      else (ns, r.s)
    | _, _ => (ns, r.s)

/-- The content a range covers, as `Range.extractContents` would return
it (partially contained nodes are cloned and truncated). -/
def rangeContents (ns : List DNode) (r : DRange) : List DNode :=
  if r.s = r.e then []
  else if r.s.path = r.e.path then
    match containerAt ns r.s.path with
    | .textC s => [.text ((s.take r.e.off).drop r.s.off)]
    | .rootC => (ns.take r.e.off).drop r.s.off
    | .elemC =>
      match nodeAtL ns r.s.path with
      | some (.elem _ _ _ cs) => (cs.take r.e.off).drop r.s.off
      | _ => []
    | .invalidC => []
  else
    match r.s.path, r.e.path with
    | [bi, ci], [bj, cj] =>
      if bi < bj then
        match ns[bi]?, ns[bj]? with
        | some (.elem t1 a1 at1 cs1), some (.elem t2 a2 at2 cs2) =>
          match cs1[ci]?, cs2[cj]? with
          | some (.text s1), some (.text s2) =>
            .elem t1 a1 at1 (.text (s1.drop r.s.off) :: cs1.drop (ci + 1))
              :: ((ns.take bj).drop (bi + 1)
                  ++ [.elem t2 a2 at2 (cs2.take cj ++ [.text (s2.take r.e.off)])])
          | _, _ => []
        | _, _ => []
      else []
    | _, _ => []

/-- Function `Range.extractContents`: the tree after extraction (identical to
deletion), the collapsed position, and the extracted content. -/
def extractContents (ns : List DNode) (r : DRange) : List DNode × Pos × List DNode :=
  ((deleteContents ns r).1, (deleteContents ns r).2, rangeContents ns r)

/-- Function `Range.toString`: the plain text a range covers. -/
def rangeText (ns : List DNode) (r : DRange) : String :=
  if r.s = r.e then ""
  else if r.s.path = r.e.path then
    match containerAt ns r.s.path with
    | .textC s => (s.take r.e.off).drop r.s.off
    | .rootC => textStrL ((ns.take r.e.off).drop r.s.off)
    | .elemC =>
      match nodeAtL ns r.s.path with
      | some (.elem _ _ _ cs) => textStrL ((cs.take r.e.off).drop r.s.off)
      | _ => ""
    | .invalidC => ""
  else
    match r.s.path, r.e.path with
    | [bi, ci], [bj, cj] =>
      if bi < bj then
        match ns[bi]?, ns[bj]? with
        | some (.elem _ _ _ cs1), some (.elem _ _ _ cs2) =>
          match cs1[ci]?, cs2[cj]? with
          | some (.text s1), some (.text s2) =>
            s1.drop r.s.off ++ textStrL (cs1.drop (ci + 1))
              ++ textStrL ((ns.take bj).drop (bi + 1))
              ++ textStrL (cs2.take cj) ++ s2.take r.e.off
          | _, _ => ""
        | _, _ => ""
      else ""
    | _, _ => ""

/-- Function `Range.insertNode` of a document fragment at a collapsed position
(every insertion in the source happens at a caret or right after a
`deleteContents`): into an element's child list it splices the fragment
at the child index; into a text node it splits the text at the offset
and places the fragment between the halves.  Returns the new tree and
the boundary point immediately after the last inserted node (what
`setStartAfter` on that node yields). -/
def insertFragAt (ns : List DNode) (pos : Pos) (frag : List DNode) : List DNode × Pos :=
  match containerAt ns pos.path with
  | .rootC | .elemC =>
    (setChildrenAt pos.path (fun cs => cs.take pos.off ++ frag ++ cs.drop pos.off) ns,
     ⟨pos.path, pos.off + frag.length⟩)
  | .textC s =>
    match parentAndIdx pos.path with
    | some (pp, ti) =>
      (setChildrenAt pp
        (fun cs => cs.take ti
          ++ ([.text (s.take pos.off)] ++ frag ++ [.text (s.drop pos.off)])
          ++ cs.drop (ti + 1)) ns,
       ⟨pp, ti + 1 + frag.length⟩)
    | none => (ns, pos)
  | .invalidC => (ns, pos)

/-- Function `Range.surroundContents(newParent)`, following the DOM specification:
fails (throws `InvalidStateError`) when a partially contained non-text
node exists — on the supported shapes, exactly when the two boundary
points have different containers; otherwise any children `newParent`
already has are removed, the range's content is extracted and appended
to `newParent`, and `newParent` is inserted in place.  Returns the new
tree and the boundary point immediately after `newParent`, or `none` on
failure. -/
def surroundContents (ns : List DNode) (r : DRange) (tag : String) (al : Option Align)
    (ats : List (String × String)) : Option (List DNode × Pos) :=
  if r.s.path = r.e.path then
    match containerAt ns r.s.path with
    | .textC s =>
      match parentAndIdx r.s.path with
      | some (pp, ti) =>
        some (setChildrenAt pp
          (fun cs => cs.take ti
            ++ [.text (s.take r.s.off),
                .elem tag al ats [.text ((s.take r.e.off).drop r.s.off)],
                .text (s.drop r.e.off)]
            ++ cs.drop (ti + 1)) ns,
         ⟨pp, ti + 2⟩)
      | none => none
    | .rootC =>
      some (ns.take r.s.off
              ++ [.elem tag al ats ((ns.take r.e.off).drop r.s.off)]
              ++ ns.drop r.e.off,
            ⟨[], r.s.off + 1⟩)
    | .elemC =>
      some (setChildrenAt r.s.path
        (fun cs => cs.take r.s.off
          ++ [.elem tag al ats ((cs.take r.e.off).drop r.s.off)]
          ++ cs.drop r.e.off) ns,
       ⟨r.s.path, r.s.off + 1⟩)
    | .invalidC => none
  else none

/-- Validity of a boundary point: its container exists and the offset is
within bounds. -/
def posValid (ns : List DNode) (p : Pos) : Bool :=
  match containerAt ns p.path with
  | .rootC => p.off ≤ ns.length
  | .textC s => p.off ≤ s.length
  | .elemC =>
    match nodeAtL ns p.path with
    | some (.elem _ _ _ cs) => p.off ≤ cs.length
    | _ => false
  | .invalidC => false

/-- A range whose two boundary points share one container, with ordered
in-bounds offsets — the first family of range shapes this model's
operations follow the DOM specification on. -/
def SameContainerShape (ns : List DNode) (r : DRange) : Prop :=
  r.s.path = r.e.path ∧ r.s.off ≤ r.e.off ∧
  posValid ns r.s = true ∧ posValid ns r.e = true

/-- A range from a text node inside one root-level block element to a
text node inside a later root-level block element — a range that
genuinely crosses element boundaries (so `surroundContents` throws on
it), the second supported shape family. -/
def CrossBlocksShape (ns : List DNode) (r : DRange) : Prop :=
  ∃ bi ci bj cj t1 a1 at1 cs1 t2 a2 at2 cs2 s1 s2,
    r.s.path = [bi, ci] ∧ r.e.path = [bj, cj] ∧ bi < bj ∧
    ns[bi]? = some (.elem t1 a1 at1 cs1) ∧ ns[bj]? = some (.elem t2 a2 at2 cs2) ∧
    cs1[ci]? = some (.text s1) ∧ cs2[cj]? = some (.text s2) ∧
    r.s.off ≤ s1.length ∧ r.e.off ≤ s2.length

/-- Longest common prefix of two paths. -/
def commonStem : List Nat → List Nat → List Nat
  | i :: a, j :: b => if i = j then i :: commonStem a b else []
  | _, _ => []

/-- Function `Range.commonAncestorContainer` as a path: the container itself when
the two boundary points share it, otherwise the deepest common ancestor. -/
def commonAncestorPath (r : DRange) : List Nat :=
  if r.s.path = r.e.path then r.s.path else commonStem r.s.path r.e.path

/-- The ancestor walk of `setAlignment`: starting from the node a path
addresses and walking parents up to (but excluding) the editor root,
the first element whose tag is a block tag
(`while (node && node !== editorRef.current) { … node = node.parentNode }`). -/
def walkUp (ns : List DNode) (p : List Nat) : Option (List Nat) :=
  go p.length
where
  /-- Checks the prefixes of `p` from longest to shortest. -/
  go : Nat → Option (List Nat)
  | 0 => none
  | n + 1 =>
    match nodeAtL ns (p.take (n + 1)) with
    | some (.elem t _ _ _) => if isBlockTag t then some (p.take (n + 1)) else go n
    | _ => go n

/-- The state of the editable region: its DOM subtree (the editor
element's children), the editor element's own direction and
`style.textAlign`, the current selection (at most one range, `none` when
`rangeCount === 0`), and whether the editor is the active element. -/
structure EditorState where
  tree : List DNode
  rootDirLtr : Bool
  rootAlign : Option Align
  sel : Option DRange
  focused : Bool

/-- Function `handleInput` (src/unnamed/part_000 lines 194-206): re-asserts the
`ltr` direction on the editor element, sets its `style.textAlign` to
`left` exactly when no descendant carries an explicit `text-align`, and
hands the serialized tree to the external owner via `onChange`.  Returns
the updated state and the emitted string. -/
def handleInput (st : EditorState) : EditorState × String :=
  let st' := { st with
    rootDirLtr := true,
    rootAlign := if hasAlignL st.tree then st.rootAlign else some Align.left }
  (st', serializeL st'.tree)

/-- The caret-restoration loop of the `[value]` effect: walk the text
leaves in document order accumulating lengths; at the first leaf where
the accumulated length reaches the saved offset, yield its index and the
residual offset (`charCount + nodeLength >= cursorPosition` /
`cursorPosition - charCount`); `none` when the walk runs out of leaves. -/
def walkRestore : List String → Nat → Option (Nat × Nat)
  | [], _ => none
  | s :: rest, k =>
    if k ≤ s.length then some (0, k)
    else
      match walkRestore rest (k - s.length) with
      | some (i, off) => some (i + 1, off)
      | none => none

mutual
/-- Plain text from the start of the editor up to a boundary point inside
a node (`preCaretRange.toString().length` is `textBeforeL` of the whole
tree): for a text container, the offset itself; for an element
container, the text of the children before the child index; descending a
path adds the text of the preceding siblings. -/
def textBeforeN : DNode → List Nat → Nat → Nat
  | .text s, [], off => min off s.length
  | .elem _ _ _ cs, [], off => textLenL (cs.take off)
  | .text _, _ :: _, _ => 0
  | .elem _ _ _ cs, p, off => textBeforeL cs p off
/-- Function `textBeforeN` relative to a node list (the editor root's children). -/
def textBeforeL : List DNode → List Nat → Nat → Nat
  | ns, [], off => textLenL (ns.take off)
  | [], _ :: _, _ => 0
  | n :: _, 0 :: rest, off => textBeforeN n rest off
  | n :: ns, (i + 1) :: rest, off => textLenN n + textBeforeL ns (i :: rest) off
end

/-- The `[value]` effect (src/unnamed/part_000 lines 42-82): reconciling
an external value.  If the value equals the current `innerHTML`, nothing
happens.  Otherwise, when the editor is focused the plain-text caret
offset is saved (from the selection's end point); the tree is replaced
by the browser's parse of the value (`pf`, the external HTML parser);
and when the editor was focused and the saved offset is positive, the
restoration walk places a collapsed selection inside the found text leaf
and refocuses the editor.  The replaced tree invalidates the old
selection, so it is cleared unless restored.  The effect never calls
`onChange`, so the second component (emissions) is always empty. -/
def reconcile (pf : String → List DNode) (st : EditorState) (newVal : String) :
    EditorState × List String :=
  if newVal = serializeL st.tree then (st, [])
  else
    let k :=
      match st.sel with
      | some r => if st.focused then textBeforeL st.tree r.e.path r.e.off else 0
      | none => 0
    let t' := pf newVal
    let base : EditorState := { st with tree := t', sel := none }
    if st.focused = true ∧ 0 < k then
      match walkRestore (textLeavesL t') k with
      | some (i, off) =>
        match (leafPathsL t' 0)[i]? with
        | some p => ({ base with sel := some (caretAt p off), focused := true }, [])
        | none => (base, [])
      | none => (base, [])
    else (base, [])

/-- The `<br>` element. -/
def brNode : DNode := .elem "br" none [] []

/-- An empty aligned paragraph as `setAlignment` creates it
(`p.innerHTML = '<br>'`). -/
def emptyAlignedP (a : Align) : DNode := .elem "p" (some a) [] [brNode]

/-- Function `setAlignment` (src/unnamed/part_000 lines 112-192).  Focuses the
editor; with no selection, aligns every block element found by
`querySelectorAll`, or — if there is none — appends an empty aligned
paragraph and puts the caret inside it; with a selection, walks
ancestors from the common container to the first block element and
aligns it; with no enclosing block, wraps non-blank selected text into a
new aligned paragraph (caret after it), or inserts an empty aligned
paragraph at the caret (caret inside it).  Every path ends in
`handleInput`.  Returns the new state and the emissions. -/
def setAlignment (st0 : EditorState) (a : Align) : EditorState × List String :=
  let st := { st0 with focused := true }
  match st.sel with
  | none =>
    if anyBlockL st.tree then
      let (st2, out) := handleInput { st with tree := alignBlocksL a st.tree }
      (st2, [out])
    else
      let p := emptyAlignedP a
      let st2 := { st with tree := st.tree ++ [p], sel := some (caretAt [st.tree.length] 0) }
      let (st3, out) := handleInput st2
      (st3, [out])
  | some r =>
    match walkUp st.tree (commonAncestorPath r) with
    | some bp =>
      let (st2, out) := handleInput { st with tree := setAlignAtPath bp a st.tree }
      (st2, [out])
    | none =>
      if jsTrim (rangeText st.tree r) ≠ "" then
        let (t1, pos, contents) := extractContents st.tree r
        let p : DNode := .elem "p" (some a) [] contents
        let (t2, af) := insertFragAt t1 pos [p]
        let st2 := { st with tree := t2, sel := some (caretAt af.path af.off) }
        let (st3, out) := handleInput st2
        (st3, [out])
      else
        let p := emptyAlignedP a
        let (t2, af) := insertFragAt st.tree r.s [p]
        let st2 := { st with tree := t2, sel := some (caretAt (af.path ++ [af.off - 1]) 0) }
        let (st3, out) := handleInput st2
        (st3, [out])

/-- The `img` element `insertImageFromUrl` builds (its `src`, `alt` and
presentational style properties, kept as opaque attribute pairs). -/
def imgNode (url : String) : DNode :=
  .elem "img" none
    [("src", url), ("alt", "Uploaded image"), ("maxWidth", "100%"), ("height", "auto"),
     ("display", "block"), ("margin", "10px auto"), ("borderRadius", "4px")] []

/-- The centered paragraph `insertImageFromUrl` produces.  (The source
builds the paragraph with the image, inserts it, then appends the `br`
and only then reads the paragraph's position; no step in between
observes the tree, so the inserted node is modelled fully built.) -/
def imageParagraph (url : String) : DNode :=
  .elem "p" (some Align.center) [] [imgNode url, brNode]

/-- Function `insertImageFromUrl` (src/unnamed/part_000 lines 332-379): for a
blank (whitespace-only) URL, does nothing; with a selection, deletes its
contents and inserts the centered image paragraph at the collapsed
position, placing the caret immediately after it; with no selection,
appends the paragraph at the end of the document, caret after it.
Focuses the editor and emits. -/
def insertImageFromUrl (st : EditorState) (url : String) : EditorState × List String :=
  if jsTrim url = "" then (st, [])
  else
    match st.sel with
    | some r =>
      let (t1, pos) := deleteContents st.tree r
      let (t2, af) := insertFragAt t1 pos [imageParagraph url]
      let st2 := { st with tree := t2, sel := some (caretAt af.path af.off), focused := true }
      let (st3, out) := handleInput st2
      (st3, [out])
    | none =>
      let st2 := { st with tree := st.tree ++ [imageParagraph url],
                           sel := some (caretAt [] (st.tree.length + 1)), focused := true }
      let (st3, out) := handleInput st2
      (st3, [out])

/-- The link-dialog state feeding `insertLink`. -/
structure LinkUI where
  linkUrl : String
  linkText : String
  showLinkDialog : Bool
deriving DecidableEq, Repr

/-- The attributes of the `a` element `insertLink` builds. -/
def linkAttrs (url : String) : List (String × String) :=
  [("href", url), ("target", "_blank"), ("rel", "noopener noreferrer"),
   ("color", "#92400e"), ("textDecoration", "underline")]

/-- The display text `insertLink` presets on the `a` element
(`linkText.trim() || linkUrl`). -/
def linkDisplay (ui : LinkUI) : String :=
  if jsTrim ui.linkText = "" then ui.linkUrl else jsTrim ui.linkText

/-- The standalone `a` element with its preset text child. -/
def linkNode (ui : LinkUI) : DNode :=
  .elem "a" none (linkAttrs ui.linkUrl) [.text (linkDisplay ui)]

/-- Function `insertLink` (src/unnamed/part_000 lines 387-432): a blank
(whitespace-only) URL is rejected before any mutation.  With a
non-collapsed selection, `surroundContents` wraps the range's content in
the `a` element (discarding its preset text, per the DOM specification);
if that throws, the range's contents are deleted and the standalone link
inserted instead.  With a collapsed or absent selection, the standalone
link is inserted at the caret (or at the end of the document).  In every
inserting branch the caret is placed immediately after the link, the
change is emitted, and the dialog state is cleared. -/
def insertLink (ui : LinkUI) (st : EditorState) : LinkUI × EditorState × List String :=
  if jsTrim ui.linkUrl = "" then (ui, st, [])
  else
    let cleared : LinkUI := ⟨"", "", false⟩
    match st.sel with
    | some r =>
      if r.collapsed then
        let (t1, pos) := deleteContents st.tree r
        let (t2, af) := insertFragAt t1 pos [linkNode ui]
        let st2 := { st with tree := t2, sel := some (caretAt af.path af.off) }
        let (st3, out) := handleInput st2
        (cleared, st3, [out])
      else
        match surroundContents st.tree r "a" none (linkAttrs ui.linkUrl) with
        | some (t2, af) =>
          let st2 := { st with tree := t2, sel := some (caretAt af.path af.off) }
          let (st3, out) := handleInput st2
          (cleared, st3, [out])
        | none =>
          let (t1, pos) := deleteContents st.tree r
          let (t2, af) := insertFragAt t1 pos [linkNode ui]
          let st2 := { st with tree := t2, sel := some (caretAt af.path af.off) }
          let (st3, out) := handleInput st2
          (cleared, st3, [out])
    | none =>
      let (t2, af) := insertFragAt st.tree ⟨[], st.tree.length⟩ [linkNode ui]
      let st2 := { st with tree := t2, sel := some (caretAt af.path af.off) }
      let (st3, out) := handleInput st2
      (cleared, st3, [out])

/-- Outcome of a paste event: the final editor state, the emissions, and
whether an uncaught DOM exception escaped the handler. -/
structure PasteResult where
  st : EditorState
  emitted : List String
  threw : Bool

/-- Function `handlePaste` (src/unnamed/part_000 lines 208-247).  With no
selection the handler returns.  Otherwise the range's contents are
deleted; when the clipboard carries non-blank `text/html`, the browser's
parse of it (`pf`) is sanitized (script/style/iframe/object/embed
removed) and inserted as a fragment at the collapsed position — after
which the source calls `setStartAfter(fragment.lastChild || fragment)`
on the now-empty, parentless fragment, which per the DOM specification
throws `InvalidNodeTypeError`, so the selection keeps the post-insert
range and `handleInput` is never reached (`threw`); when only plain
`text/plain` is present, a single text node with it is inserted, the
caret placed after it, and the change emitted; with neither, the
(deleting) handler still ends in `handleInput`. -/
def handlePaste (pf : String → List DNode) (st : EditorState) (html txt : String) :
    PasteResult :=
  match st.sel with
  | none => ⟨st, [], false⟩
  | some r =>
    let (t1, pos) := deleteContents st.tree r
    if jsTrim html ≠ "" then
      let frag := sanitizeL (pf html)
      let (t2, af) := insertFragAt t1 pos frag
      ⟨{ st with tree := t2, sel := some ⟨pos, af⟩ }, [], true⟩
    else if txt ≠ "" then
      let (t2, af) := insertFragAt t1 pos [.text txt]
      let st2 := { st with tree := t2, sel := some (caretAt af.path af.off) }
      let (st3, out) := handleInput st2
      ⟨st3, [out], false⟩
    else
      let st2 := { st with tree := t1, sel := some (caretAt pos.path pos.off) }
      let (st3, out) := handleInput st2
      ⟨st3, [out], false⟩

/-- The image-dialog state feeding `uploadAndInsertImage` (the selected
file is reduced to its name; only its presence matters). -/
structure ImageUI where
  imageFile : Option String
  imagePreview : String
  uploadingImage : Bool
  showImageDialog : Bool
deriving DecidableEq, Repr

/-- The JSON body of the upload response, when the body parses as JSON:
its optional `url` and `error` fields. -/
structure UploadBody where
  url : Option String
  error : Option String
deriving DecidableEq, Repr

/-- An HTTP response to the upload request: `Response.ok`, the status
code, and the parsed body (`none` when `response.json()` rejects). -/
structure HttpResponse where
  ok : Bool
  status : Nat
  body : Option UploadBody
deriving DecidableEq, Repr

/-- The outcome of the single `fetch` call: the promise rejects with an
error message, or resolves to a response. -/
inductive FetchOutcome where
  | rejected (msg : String)
  | resolved (resp : HttpResponse)
deriving DecidableEq, Repr

/-- Result of one `uploadAndInsertImage` run: the dialog state, the
editor state, the `alert`ed messages, the emissions, and how many upload
requests were issued. -/
structure UploadResult where
  ui : ImageUI
  ed : EditorState
  alerts : List String
  emitted : List String
  requests : Nat

/-- The error message thrown for a non-ok response whose body gives no
`error` string. -/
def statusFailMsg (status : Nat) : String :=
  "Failed to upload image: " ++ toString status

/-- Stands for the browser's `SyntaxError` message when
`response.json()` rejects on an ok response (its exact text is
browser-specific and irrelevant here; only that it is alerted matters). -/
def jsonErrMsg : String := "Unexpected end of JSON input"

/-- The message thrown when the response carries no usable `url`. -/
def noUrlMsg : String := "No image URL returned from server"

/-- Function `uploadAndInsertImage` (src/unnamed/part_000 lines 289-330): without
a selected file it returns at once.  Otherwise exactly one request is
issued; its outcome is the `fetch` promise's.  A rejected promise, a
non-ok status (alerting the body's `error` string if any, else the
status message), an unparsable body, or a missing/empty `url` each alert
a failure message and leave the editor untouched; a usable `url` is
inserted via `insertImageFromUrl`.  The `finally` block always resets
the uploading flag, clears the file and preview, and closes the dialog.
(JavaScript truthiness: an empty `error` string falls back to the status
message; an empty `url` string counts as missing.) -/
def uploadAndInsertImage (ui : ImageUI) (st : EditorState) (outcome : FetchOutcome) :
    UploadResult :=
  match ui.imageFile with
  | none => ⟨ui, st, [], [], 0⟩
  | some _ =>
    let cleared : ImageUI := ⟨none, "", false, false⟩
    match outcome with
    | .rejected msg => ⟨cleared, st, [msg], [], 1⟩
    | .resolved resp =>
      if resp.ok then
        match resp.body with
        | none => ⟨cleared, st, [jsonErrMsg], [], 1⟩
        | some b =>
          match b.url with
          | some u =>
            if u = "" then ⟨cleared, st, [noUrlMsg], [], 1⟩
            else
              let (st2, ems) := insertImageFromUrl st u
              ⟨cleared, st2, [], ems, 1⟩
          | none => ⟨cleared, st, [noUrlMsg], [], 1⟩
      else
        let m :=
          match resp.body with
          | some b =>
            match b.error with
            | some e => if e = "" then statusFailMsg resp.status else e
            | none => statusFailMsg resp.status
          | none => statusFailMsg resp.status
        ⟨cleared, st, [m], [], 1⟩

/-- Sum of the lengths of a list of text leaves (the total plain-text
length the caret-restoration walk can cover). -/
def sumLens : List String → Nat
  | [] => 0
  | s :: rest => s.length + sumLens rest

/-- The child list of the element a path addresses (`some ns` for `[]`,
the editor root's own child list). -/
def childrenAt : List Nat → List DNode → Option (List DNode)
  | [], ns => some ns
  | i :: rest, ns =>
    match ns[i]? with
    | some (.elem _ _ _ cs) => childrenAt rest cs
    | _ => none

/-- Holds when `after` arises from `before` by splicing in a single text node that
carries exactly `t` — directly into some element's child list, or by
splitting an existing text node in two around it. -/
def insertedSingleTextRun (before after : List DNode) (t : String) : Prop :=
  (∃ p i, after
      = setChildrenAt p (fun cs => cs.take i ++ [DNode.text t] ++ cs.drop i) before) ∨
  (∃ (pp : List Nat) (ti off : Nat) (s : String), after
      = setChildrenAt pp
          (fun cs => cs.take ti
            ++ [DNode.text (s.take off), DNode.text t, DNode.text (s.drop off)]
            ++ cs.drop (ti + 1)) before)

/-! Concrete fixtures used by the witness and counterexample theorems. -/

/-- A fixed external HTML parser yielding one text node `xyz`. -/
def exParse : String → List DNode := fun _ => [DNode.text "xyz"]

/-- A focused editor over the text `ab` with the caret at plain-text
offset 1. -/
def exStRestore : EditorState :=
  { tree := [DNode.text "ab"], rootDirLtr := true, rootAlign := some Align.left,
    sel := some (caretAt [0] 1), focused := true }

/-- A focused editor over the text `ab` with the caret at plain-text
offset 0. -/
def exStZero : EditorState :=
  { tree := [DNode.text "ab"], rootDirLtr := true, rootAlign := some Align.left,
    sel := some (caretAt [0] 0), focused := true }

/-- An editor holding one paragraph, with no selection. -/
def exStOnePara : EditorState :=
  { tree := [DNode.elem "p" none [] [DNode.text "a"]], rootDirLtr := true,
    rootAlign := some Align.left, sel := none, focused := true }

/-- An editor holding two paragraphs, caret inside the first one's text. -/
def exStTwoParas : EditorState :=
  { tree := [DNode.elem "p" none [] [DNode.text "aa"],
             DNode.elem "p" none [] [DNode.text "bb"]],
    rootDirLtr := true, rootAlign := some Align.left,
    sel := some (caretAt [0, 0] 1), focused := true }

/-- An empty document with an active empty caret at its start. -/
def exStEmptyCaret : EditorState :=
  { tree := [], rootDirLtr := true, rootAlign := some Align.left,
    sel := some (caretAt [] 0), focused := true }

/-- An editor over the bare text `hi`, all of it selected (both boundary
points inside the one text node). -/
def exStHi : EditorState :=
  { tree := [DNode.text "hi"], rootDirLtr := true, rootAlign := some Align.left,
    sel := some ⟨⟨[0], 0⟩, ⟨[0], 2⟩⟩, focused := true }

/-- Link-dialog state with URL `u` and a blank display text. -/
def exUiBlank : LinkUI := ⟨"u", "", true⟩

/-- An editor over the bare text `abc` with the caret at offset 1 of it. -/
def exStAbc : EditorState :=
  { tree := [DNode.text "abc"], rootDirLtr := true, rootAlign := some Align.left,
    sel := some (caretAt [0] 1), focused := true }

/-- A paste parser producing a `script` element followed by a text node. -/
def exParsePaste : String → List DNode :=
  fun _ => [DNode.elem "script" none [] [DNode.text "evil"], DNode.text "ok"]

/-- Image-dialog state with a selected file and the dialog open. -/
def exUiFile : ImageUI := ⟨some "f.png", "pv", false, true⟩

/-- The failing upload outcomes claim C8 enumerates: the request
rejects, the response status is non-2xx (`!response.ok`), or the
response lacks a usable `url` field (no JSON body, or no `url` in it). -/
def uploadFailed : FetchOutcome → Prop
  | .rejected _ => True
  | .resolved resp => resp.ok = false ∨ resp.body.bind UploadBody.url = none

/-- Claim C1: for every document (state) and every HTML parser, calling
`reconcile` with a string equal to the current serialization is a
complete no-op — the state (tree, selection, focus, root bookkeeping) is
returned unchanged and nothing is emitted. -/
theorem reconcile_equal_value_noop (pf : String → List DNode) (st : EditorState) :
    reconcile pf st (serializeL st.tree) = (st, []) := by
  simp [reconcile]

/-- Claim C9: every emission (a `handleInput` run) leaves the root's
reading direction left-to-right, assigns the root alignment `left`
exactly when no descendant carries an explicit alignment (otherwise the
root alignment is left untouched), does not change the tree or the
selection, and hands the serialized tree to the external owner. -/
theorem handleInput_emission_contract (st : EditorState) :
    (handleInput st).1.rootDirLtr = true ∧
    (handleInput st).1.rootAlign
      = (if hasAlignL st.tree then st.rootAlign else some Align.left) ∧
    (handleInput st).1.tree = st.tree ∧
    (handleInput st).1.sel = st.sel ∧
    (handleInput st).2 = serializeL st.tree := by
  refine ⟨rfl, rfl, rfl, rfl, rfl⟩

/-- Claim C8: every failing upload attempt (rejected request, non-2xx
status, or missing `url` field) alerts a user-visible failure message,
resets the upload state to idle, issues no further request (exactly the
one request of this attempt), leaves the editor state untouched (no
image inserted) and emits nothing. -/
theorem upload_failure_handling (ui : ImageUI) (st : EditorState) (o : FetchOutcome)
    (f : String) (hf : ui.imageFile = some f) (hfail : uploadFailed o) :
    (uploadAndInsertImage ui st o).alerts ≠ [] ∧
    (uploadAndInsertImage ui st o).ui.uploadingImage = false ∧
    (uploadAndInsertImage ui st o).requests = 1 ∧
    (uploadAndInsertImage ui st o).ed = st ∧
    (uploadAndInsertImage ui st o).emitted = [] := by
  unfold uploadAndInsertImage
  rw [hf]
  cases o with
  | rejected m => simp
  | resolved resp =>
    simp only [uploadFailed] at hfail
    by_cases hok : resp.ok
    · cases hb : resp.body with
      | none => simp [hok, hb]
      | some b =>
        cases hu : b.url with
        | none => simp [hok, hb, hu]
        | some u =>
          exfalso
          rcases hfail with h | h
          · rw [h] at hok
            exact Bool.false_ne_true hok
          · rw [hb] at h
            simp [hu] at h
    · simp [hok]

/-- Claim C10: every completed upload attempt — successful or failed —
closes the image dialog, clears the pending file and preview, and
resets the uploading flag. -/
theorem upload_always_clears_dialog (ui : ImageUI) (st : EditorState) (o : FetchOutcome)
    (f : String) (hf : ui.imageFile = some f) :
    (uploadAndInsertImage ui st o).ui = ⟨none, "", false, false⟩ := by
  unfold uploadAndInsertImage
  rw [hf]
  cases o with
  | rejected m => rfl
  | resolved resp =>
    by_cases hok : resp.ok
    · cases hb : resp.body with
      | none => simp [hok, hb]
      | some b =>
        cases hu : b.url with
        | none => simp [hok, hb, hu]
        | some u => by_cases hu0 : u = "" <;> simp [hok, hb, hu, hu0]
    · simp [hok]

/-- Witness for claim C8 at a concrete failing outcome (a rejected
request against a concrete dialog and editor state). -/
theorem upload_failure_handling_witness :
    (uploadAndInsertImage exUiFile exStAbc (.rejected "network down")).alerts ≠ [] ∧
    (uploadAndInsertImage exUiFile exStAbc (.rejected "network down")).ui.uploadingImage
      = false ∧
    (uploadAndInsertImage exUiFile exStAbc (.rejected "network down")).requests = 1 ∧
    (uploadAndInsertImage exUiFile exStAbc (.rejected "network down")).ed = exStAbc ∧
    (uploadAndInsertImage exUiFile exStAbc (.rejected "network down")).emitted = [] :=
  upload_failure_handling exUiFile exStAbc (.rejected "network down") "f.png" rfl trivial

/-- Witness for claim C10 at a concrete successful outcome. -/
theorem upload_always_clears_dialog_witness :
    (uploadAndInsertImage exUiFile exStAbc
        (.resolved ⟨true, 200, some ⟨some "u", none⟩⟩)).ui
      = ⟨none, "", false, false⟩ :=
  upload_always_clears_dialog exUiFile exStAbc
    (.resolved ⟨true, 200, some ⟨some "u", none⟩⟩) "f.png" rfl

mutual
/-- After `alignBlocksN`, every block element under the node carries the
requested alignment. -/
theorem blocksAligned_alignN (a : Align) :
    (n : DNode) → blocksAlignedN a (alignBlocksN a n) = true
  | .text s => rfl
  | .elem t al ats cs => by
    by_cases h : isBlockTag t <;>
      simp [alignBlocksN, blocksAlignedN, h, blocksAligned_alignL a cs]
/-- After `alignBlocksL`, every block element in the list carries the
requested alignment. -/
theorem blocksAligned_alignL (a : Align) :
    (ns : List DNode) → blocksAlignedL a (alignBlocksL a ns) = true
  | [] => rfl
  | n :: ns => by
    simp [alignBlocksL, blocksAlignedL, blocksAligned_alignN a n, blocksAligned_alignL a ns]
end

mutual
/-- Function `alignBlocksN` changes nothing but alignment attributes. -/
theorem eraseAlign_alignN (a : Align) :
    (n : DNode) → eraseAlignN (alignBlocksN a n) = eraseAlignN n
  | .text s => rfl
  | .elem t al ats cs => by
    simp [alignBlocksN, eraseAlignN, eraseAlign_alignL a cs]
/-- Function `alignBlocksL` changes nothing but alignment attributes. -/
theorem eraseAlign_alignL (a : Align) :
    (ns : List DNode) → eraseAlignL (alignBlocksL a ns) = eraseAlignL ns
  | [] => rfl
  | n :: ns => by
    simp [alignBlocksL, eraseAlignL, eraseAlign_alignN a n, eraseAlign_alignL a ns]
end

/-- Claim C3: `setAlignment` with no selection gives every block element
in the document the requested alignment while changing nothing else
(equal alignment-erasures); and when the document has no block element
at all, it appends one empty aligned paragraph and puts the caret inside
it. -/
theorem setAlignment_no_selection (st : EditorState) (a : Align) (h : st.sel = none) :
    (anyBlockL st.tree = true →
       blocksAlignedL a (setAlignment st a).1.tree = true ∧
       eraseAlignL (setAlignment st a).1.tree = eraseAlignL st.tree) ∧
    (anyBlockL st.tree = false →
       (setAlignment st a).1.tree = st.tree ++ [emptyAlignedP a] ∧
       (setAlignment st a).1.sel = some (caretAt [st.tree.length] 0)) := by
  constructor
  · intro hb
    simp [setAlignment, h, hb, handleInput, blocksAligned_alignL, eraseAlign_alignL]
  · intro hb
    simp [setAlignment, h, hb, handleInput]

/-- Witness for claim C3 on a one-paragraph document with no selection. -/
theorem setAlignment_no_selection_witness :
    (anyBlockL exStOnePara.tree = true →
       blocksAlignedL Align.center (setAlignment exStOnePara Align.center).1.tree = true ∧
       eraseAlignL (setAlignment exStOnePara Align.center).1.tree
         = eraseAlignL exStOnePara.tree) ∧
    (anyBlockL exStOnePara.tree = false →
       (setAlignment exStOnePara Align.center).1.tree
         = exStOnePara.tree ++ [emptyAlignedP Align.center] ∧
       (setAlignment exStOnePara Align.center).1.sel
         = some (caretAt [exStOnePara.tree.length] 0)) :=
  setAlignment_no_selection exStOnePara Align.center rfl

/-- Claim C4: `setAlignment('center')` with a caret whose ancestor walk
ends at the paragraph at root index `i` rewrites exactly that
paragraph's alignment attribute — its tag, attributes and content are
kept, and every other root node is untouched. -/
theorem setAlignment_caret_in_paragraph (st : EditorState) (r : DRange) (i : Nat)
    (al : Option Align) (ats : List (String × String)) (cs : List DNode)
    (hsel : st.sel = some r)
    (hwalk : walkUp st.tree (commonAncestorPath r) = some [i])
    (hnode : st.tree[i]? = some (.elem "p" al ats cs)) :
    (setAlignment st Align.center).1.tree
        = st.tree.set i (.elem "p" (some Align.center) ats cs) ∧
    (setAlignment st Align.center).1.tree[i]?
        = some (.elem "p" (some Align.center) ats cs) ∧
    ∀ j, j ≠ i → (setAlignment st Align.center).1.tree[j]? = st.tree[j]? := by
  have hlen : i < st.tree.length := by
    rcases List.getElem?_eq_some_iff.1 hnode with ⟨h, _⟩
    exact h
  have hset : setAlignAtPath [i] Align.center st.tree
      = st.tree.set i (.elem "p" (some Align.center) ats cs) := by
    simp [setAlignAtPath, hnode]
  refine ⟨?_, ?_, ?_⟩
  · simp [setAlignment, hsel, hwalk, handleInput, hset]
  · simp [setAlignment, hsel, hwalk, handleInput, hset, List.getElem?_set_self hlen]
  · intro j hj
    simp [setAlignment, hsel, hwalk, handleInput, hset, List.getElem?_set_ne (Ne.symm hj)]

/-- Witness for claim C4 on a two-paragraph document with the caret in
the first paragraph's text. -/
theorem setAlignment_caret_in_paragraph_witness :
    (setAlignment exStTwoParas Align.center).1.tree
        = exStTwoParas.tree.set 0 (.elem "p" (some Align.center) [] [.text "aa"]) ∧
    (setAlignment exStTwoParas Align.center).1.tree[0]?
        = some (.elem "p" (some Align.center) [] [.text "aa"]) ∧
    ∀ j, j ≠ 0 → (setAlignment exStTwoParas Align.center).1.tree[j]?
        = exStTwoParas.tree[j]? :=
  setAlignment_caret_in_paragraph exStTwoParas (caretAt [0, 0] 1) 0 none []
    [DNode.text "aa"] rfl rfl rfl

/-- Claim C5 (amended: the URL must be non-empty after whitespace
trimming): `insertImageFromUrl` on an empty document with an active
empty caret produces exactly one centered paragraph holding the image
followed by a line break, with the caret immediately after that block
and the editor focused. -/
theorem insertImage_empty_document (st : EditorState) (url : String)
    (hurl : jsTrim url ≠ "") (htree : st.tree = [])
    (hsel : st.sel = some (caretAt [] 0)) :
    (insertImageFromUrl st url).1.tree = [imageParagraph url] ∧
    (insertImageFromUrl st url).1.sel = some (caretAt [] 1) ∧
    (insertImageFromUrl st url).1.focused = true := by
  simp [insertImageFromUrl, hurl, hsel, htree, deleteContents, insertFragAt, containerAt,
        setChildrenAt, handleInput, caretAt]

/-- Witness for (amended) claim C5 at a concrete URL on the empty
document. -/
theorem insertImage_empty_document_witness :
    (insertImageFromUrl exStEmptyCaret "u.png").1.tree = [imageParagraph "u.png"] ∧
    (insertImageFromUrl exStEmptyCaret "u.png").1.sel = some (caretAt [] 1) ∧
    (insertImageFromUrl exStEmptyCaret "u.png").1.focused = true :=
  insertImage_empty_document exStEmptyCaret "u.png" (by decide) rfl rfl

/-- Counterexample to claim C5 as stated: the URL `" "` is non-empty,
yet `insertImageFromUrl` returns before any mutation (its guard trims
the URL), so the empty document stays empty — no centered block is
produced. -/
theorem insertImage_blank_url_ignored :
    (insertImageFromUrl exStEmptyCaret " ").1.tree = [] ∧ (" " : String) ≠ "" :=
  ⟨rfl, by decide⟩

/-- The restoration walk is correct: whenever the saved offset is
positive and the total text length reaches it, the walk stops at the
first text leaf whose cumulative range contains the offset and yields
the residual offset there. -/
theorem walkRestore_spec :
    ∀ (ls : List String) (k : Nat), 0 < k → k ≤ sumLens ls →
    ∃ i, i < ls.length ∧
      walkRestore ls k = some (i, k - sumLens (ls.take i)) ∧
      sumLens (ls.take i) < k ∧
      k ≤ sumLens (ls.take i) + (ls.getD i "").length
  | [], k, hk, hle => by
    simp [sumLens] at hle
    omega
  | s :: rest, k, hk, hle => by
    by_cases h : k ≤ s.length
    · refine ⟨0, by simp, ?_, ?_, ?_⟩
      · simp [walkRestore, h, sumLens]
      · simpa [sumLens] using hk
      · simpa [sumLens] using h
    · have hlt : s.length < k := Nat.lt_of_not_le h
      have hk' : 0 < k - s.length := by omega
      have hle' : k - s.length ≤ sumLens rest := by
        simp [sumLens] at hle
        omega
      obtain ⟨i, hi, hw, h1, h2⟩ := walkRestore_spec rest (k - s.length) hk' hle'
      refine ⟨i + 1, by simpa using hi, ?_, ?_, ?_⟩
      · simp only [walkRestore, if_neg h, hw, List.take_succ_cons, sumLens]
        congr 2
        omega
      · simp only [List.take_succ_cons, sumLens]
        omega
      · simp only [List.take_succ_cons, sumLens, List.getD_cons_succ]
        omega

mutual
/-- Each text leaf has exactly one path: the two walks line up. -/
theorem leafPathsN_length : (n : DNode) → (leafPathsN n).length = (textLeavesN n).length
  | .text s => rfl
  | .elem t al ats cs => by
    simp [leafPathsN, textLeavesN, leafPathsL_length cs 0]
/-- List version of `leafPathsN_length` (the start index is irrelevant). -/
theorem leafPathsL_length :
    (ns : List DNode) → (i : Nat) → (leafPathsL ns i).length = (textLeavesL ns).length
  | [], _ => rfl
  | n :: ns, i => by
    simp [leafPathsL, textLeavesL, leafPathsN_length n, leafPathsL_length ns (i + 1)]
end

/-- Claim C2 (amended: the saved plain-text offset `k` must be positive;
the source skips restoration for offset 0): reconciling a focused
editor with a different value whose total text length reaches `k`
places the caret inside the text leaf whose cumulative offset range
contains `k`, at the residual offset (`k` minus the lengths of all
earlier leaves), replaces the tree, and restores focus. -/
theorem reconcile_restores_caret (pf : String → List DNode) (st : EditorState)
    (newVal : String) (r : DRange) (k : Nat)
    (hfoc : st.focused = true) (hsel : st.sel = some r)
    (hk : textBeforeL st.tree r.e.path r.e.off = k) (hkpos : 0 < k)
    (hne : newVal ≠ serializeL st.tree)
    (hlen : k ≤ sumLens (textLeavesL (pf newVal))) :
    ∃ i p,
      (leafPathsL (pf newVal) 0)[i]? = some p ∧
      sumLens ((textLeavesL (pf newVal)).take i) < k ∧
      k ≤ sumLens ((textLeavesL (pf newVal)).take i)
            + ((textLeavesL (pf newVal)).getD i "").length ∧
      (reconcile pf st newVal).1.sel
        = some (caretAt p (k - sumLens ((textLeavesL (pf newVal)).take i))) ∧
      (reconcile pf st newVal).1.focused = true ∧
      (reconcile pf st newVal).1.tree = pf newVal := by
  obtain ⟨i, hi, hw, h1, h2⟩ := walkRestore_spec (textLeavesL (pf newVal)) k hkpos hlen
  have hip : i < (leafPathsL (pf newVal) 0).length := by
    rw [leafPathsL_length]
    exact hi
  refine ⟨i, (leafPathsL (pf newVal) 0)[i], List.getElem?_eq_getElem hip, h1, h2,
    ?_, ?_, ?_⟩ <;>
  simp [reconcile, hsel, hfoc, hk, hne, hkpos, hw, List.getElem?_eq_getElem hip]

/-- Witness for (amended) claim C2: a focused editor over `ab` with the
caret at offset 1, reconciled to a parse yielding the single leaf
`xyz`. -/
theorem reconcile_restores_caret_witness :
    ∃ i p,
      (leafPathsL (exParse "xyz") 0)[i]? = some p ∧
      sumLens ((textLeavesL (exParse "xyz")).take i) < 1 ∧
      1 ≤ sumLens ((textLeavesL (exParse "xyz")).take i)
            + ((textLeavesL (exParse "xyz")).getD i "").length ∧
      (reconcile exParse exStRestore "xyz").1.sel
        = some (caretAt p (1 - sumLens ((textLeavesL (exParse "xyz")).take i))) ∧
      (reconcile exParse exStRestore "xyz").1.focused = true ∧
      (reconcile exParse exStRestore "xyz").1.tree = exParse "xyz" :=
  reconcile_restores_caret exParse exStRestore "xyz" (caretAt [0] 1) 1
    rfl rfl rfl (by decide) (by decide) (by decide)

/-- Counterexample to claim C2 as stated: with the caret at plain-text
offset 0 in a focused editor and a longer new value, the source skips
restoration entirely (`cursorPosition > 0` gate), so no caret is placed
in the new tree at all. -/
theorem reconcile_zero_offset_skips_restore :
    exStZero.focused = true ∧
    textBeforeL exStZero.tree [0] 0 = 0 ∧
    (reconcile exParse exStZero "xyz").1.sel = none :=
  ⟨rfl, rfl, rfl⟩

/-- A path of one step addresses a root child. -/
theorem nodeAtL_single (ns : List DNode) (i : Nat) : nodeAtL ns [i] = ns[i]? := rfl

/-- Unfolding `nodeAtL` on a longer path. -/
theorem nodeAtL_cons (ns : List DNode) (i : Nat) (rest : List Nat) (h : rest ≠ []) :
    nodeAtL ns (i :: rest)
      = match ns[i]? with
        | some (.elem _ _ _ cs) => nodeAtL cs rest
        | _ => none := by
  cases rest with
  | nil => exact absurd rfl h
  | cons j rest => rfl

/-- Addressing `pp ++ [ti]` is looking up child `ti` of the element at
`pp`. -/
theorem nodeAtL_append_last :
    ∀ (pp : List Nat) (ns : List DNode) (ti : Nat),
      nodeAtL ns (pp ++ [ti]) = (childrenAt pp ns).bind (fun cs => cs[ti]?)
  | [], ns, ti => by simp [childrenAt, nodeAtL_single]
  | i :: pp, ns, ti => by
    rw [List.cons_append, nodeAtL_cons ns i (pp ++ [ti]) (by simp)]
    cases h : ns[i]? with
    | none => simp [childrenAt, h]
    | some n =>
      cases n with
      | text s => simp [childrenAt, h]
      | elem t al ats cs => simp [childrenAt, h, nodeAtL_append_last pp cs ti]

/-- The child list found by `childrenAt` is the one of the element
`nodeAtL` finds. -/
theorem childrenAt_of_nodeAtL :
    ∀ (p : List Nat) (ns : List DNode) (t : String) (al : Option Align)
      (ats : List (String × String)) (cs : List DNode),
      nodeAtL ns p = some (.elem t al ats cs) → childrenAt p ns = some cs
  | [], ns, t, al, ats, cs, h => by simp [nodeAtL] at h
  | [i], ns, t, al, ats, cs, h => by
    rw [nodeAtL_single] at h
    simp [childrenAt, h]
  | i :: j :: rest, ns, t, al, ats, cs, h => by
    rw [nodeAtL_cons ns i (j :: rest) (by simp)] at h
    cases h' : ns[i]? with
    | none => rw [h'] at h; exact absurd h (by simp)
    | some n =>
      cases n with
      | text s => rw [h'] at h; exact absurd h (by simp)
      | elem t' al' ats' cs' =>
        rw [h'] at h
        simp only at h
        simp only [childrenAt, h']
        simpa only [childrenAt] using childrenAt_of_nodeAtL (j :: rest) cs' t al ats cs h

/-- Function `setChildrenAt` rewrites exactly the addressed child list. -/
theorem childrenAt_setChildrenAt :
    ∀ (pp : List Nat) (ns cs : List DNode) (f : List DNode → List DNode),
      childrenAt pp ns = some cs →
      childrenAt pp (setChildrenAt pp f ns) = some (f cs)
  | [], ns, cs, f, h => by
    simp [childrenAt] at h
    simp [childrenAt, setChildrenAt, h]
  | i :: rest, ns, cs, f, h => by
    simp only [childrenAt] at h
    cases h' : ns[i]? with
    | none => rw [h'] at h; exact absurd h (by simp)
    | some n =>
      cases n with
      | text s => rw [h'] at h; exact absurd h (by simp)
      | elem t al ats cs' =>
        rw [h'] at h
        simp only at h
        have hlen : i < ns.length := (List.getElem?_eq_some_iff.1 h').1
        simp only [setChildrenAt, h']
        simp only [childrenAt, List.getElem?_set_self hlen]
        exact childrenAt_setChildrenAt rest cs' cs f h

/-- Looking up a child of the rewritten element evaluates the rewrite. -/
theorem nodeAtL_setChildrenAt (pp : List Nat) (ns cs : List DNode)
    (f : List DNode → List DNode) (ti : Nat) (h : childrenAt pp ns = some cs) :
    nodeAtL (setChildrenAt pp f ns) (pp ++ [ti]) = (f cs)[ti]? := by
  rw [nodeAtL_append_last, childrenAt_setChildrenAt pp ns cs f h]
  rfl

/-- Function `setTextAt` keeps the addressed node a text node (with the new
data). -/
theorem nodeAtL_setTextAt_self :
    ∀ (p : List Nat) (ns : List DNode) (s s' : String),
      nodeAtL ns p = some (.text s) →
      nodeAtL (setTextAt p s' ns) p = some (.text s')
  | [], ns, s, s', h => by simp [nodeAtL] at h
  | [i], ns, s, s', h => by
    rw [nodeAtL_single] at h
    have hlen : i < ns.length := (List.getElem?_eq_some_iff.1 h).1
    simp [setTextAt, h, nodeAtL_single, List.getElem?_set_self hlen]
  | i :: j :: rest, ns, s, s', h => by
    rw [nodeAtL_cons ns i (j :: rest) (by simp)] at h
    cases h' : ns[i]? with
    | none => rw [h'] at h; exact absurd h (by simp)
    | some n =>
      cases n with
      | text s0 => rw [h'] at h; exact absurd h (by simp)
      | elem t al ats cs =>
        rw [h'] at h
        simp only at h
        have hlen : i < ns.length := (List.getElem?_eq_some_iff.1 h').1
        simp only [setTextAt, h']
        rw [nodeAtL_cons _ i (j :: rest) (by simp), List.getElem?_set_self hlen]
        simp only
        exact nodeAtL_setTextAt_self (j :: rest) cs s s' h

/-- Function `setChildrenAt` keeps the addressed node an element (tag, alignment
and attributes unchanged, children rewritten). -/
theorem nodeAtL_setChildrenAt_self :
    ∀ (p : List Nat) (ns : List DNode) (t : String) (al : Option Align)
      (ats : List (String × String)) (cs : List DNode) (f : List DNode → List DNode),
      nodeAtL ns p = some (.elem t al ats cs) →
      nodeAtL (setChildrenAt p f ns) p = some (.elem t al ats (f cs))
  | [], ns, t, al, ats, cs, f, h => by simp [nodeAtL] at h
  | [i], ns, t, al, ats, cs, f, h => by
    rw [nodeAtL_single] at h
    have hlen : i < ns.length := (List.getElem?_eq_some_iff.1 h).1
    simp [setChildrenAt, h, nodeAtL_single, List.getElem?_set_self hlen]
  | i :: j :: rest, ns, t, al, ats, cs, f, h => by
    rw [nodeAtL_cons ns i (j :: rest) (by simp)] at h
    cases h' : ns[i]? with
    | none => rw [h'] at h; exact absurd h (by simp)
    | some n =>
      cases n with
      | text s0 => rw [h'] at h; exact absurd h (by simp)
      | elem t' al' ats' cs' =>
        rw [h'] at h
        simp only at h
        have hlen : i < ns.length := (List.getElem?_eq_some_iff.1 h').1
        simp only [setChildrenAt, h']
        rw [nodeAtL_cons _ i (j :: rest) (by simp), List.getElem?_set_self hlen]
        simp only
        exact nodeAtL_setChildrenAt_self (j :: rest) cs' t al ats cs f h

/-- Function `parentAndIdx` decomposes the path. -/
theorem parentAndIdx_spec (p : List Nat) (pp : List Nat) (ti : Nat)
    (h : parentAndIdx p = some (pp, ti)) : p = pp ++ [ti] := by
  unfold parentAndIdx at h
  cases hr : p.reverse with
  | nil => rw [hr] at h; exact absurd h (by simp)
  | cons i rest =>
    rw [hr] at h
    simp only [Option.some.injEq, Prod.mk.injEq] at h
    obtain ⟨h1, h2⟩ := h
    have : p = (i :: rest).reverse := by
      rw [← hr, List.reverse_reverse]
    rw [this, List.reverse_cons, h1, h2]

/-- Every nonempty path has a parent decomposition. -/
theorem parentAndIdx_of_ne_nil (p : List Nat) (h : p ≠ []) :
    ∃ pp ti, parentAndIdx p = some (pp, ti) := by
  unfold parentAndIdx
  cases hr : p.reverse with
  | nil => exact absurd (by simpa using congrArg List.reverse hr) h
  | cons i rest => exact ⟨rest.reverse, i, rfl⟩

/-- Only the empty path addresses the editor root. -/
theorem containerAt_eq_rootC (ns : List DNode) (p : List Nat)
    (h : containerAt ns p = .rootC) : p = [] := by
  cases p with
  | nil => rfl
  | cons i rest =>
    simp only [containerAt] at h
    cases h' : nodeAtL ns (i :: rest) with
    | none => rw [h'] at h; exact absurd h (by simp)
    | some n => cases n <;> rw [h'] at h <;> exact absurd h (by simp)
/-- Function `bannedFreeL` distributes over concatenation. -/
theorem bannedFreeL_append :
    ∀ (a b : List DNode), bannedFreeL (a ++ b) = (bannedFreeL a && bannedFreeL b)
  | [], b => by simp [bannedFreeL]
  | n :: a, b => by
    simp [bannedFreeL, bannedFreeL_append a b, Bool.and_assoc]

/-- Stripped-tag freedom passes to any `take`. -/
theorem bannedFreeL_take (ns : List DNode) (n : Nat) (h : bannedFreeL ns = true) :
    bannedFreeL (ns.take n) = true := by
  have h2 := bannedFreeL_append (ns.take n) (ns.drop n)
  rw [List.take_append_drop, h] at h2
  have h3 : (bannedFreeL (ns.take n) && bannedFreeL (ns.drop n)) = true := h2.symm
  rw [Bool.and_eq_true] at h3
  exact h3.1

/-- Stripped-tag freedom passes to any `drop`. -/
theorem bannedFreeL_drop (ns : List DNode) (n : Nat) (h : bannedFreeL ns = true) :
    bannedFreeL (ns.drop n) = true := by
  have h2 := bannedFreeL_append (ns.take n) (ns.drop n)
  rw [List.take_append_drop, h] at h2
  have h3 : (bannedFreeL (ns.take n) && bannedFreeL (ns.drop n)) = true := h2.symm
  rw [Bool.and_eq_true] at h3
  exact h3.2

/-- Every member of a banned-free list is banned-free. -/
theorem bannedFreeN_of_getElem :
    ∀ (ns : List DNode) (i : Nat) (n : DNode),
      bannedFreeL ns = true → ns[i]? = some n → bannedFreeN n = true
  | [], i, n, _, h => by simp at h
  | m :: ns, 0, n, hb, h => by
    simp at h
    rw [bannedFreeL, Bool.and_eq_true] at hb
    rw [← h]
    exact hb.1
  | m :: ns, i + 1, n, hb, h => by
    rw [bannedFreeL, Bool.and_eq_true] at hb
    exact bannedFreeN_of_getElem ns i n hb.2 (by simpa using h)

/-- Setting a banned-free node keeps the list banned-free. -/
theorem bannedFreeL_set :
    ∀ (ns : List DNode) (i : Nat) (x : DNode),
      bannedFreeL ns = true → bannedFreeN x = true → bannedFreeL (ns.set i x) = true
  | [], i, x, hb, hx => by simpa using hb
  | m :: ns, 0, x, hb, hx => by
    rw [bannedFreeL, Bool.and_eq_true] at hb
    simp [List.set, bannedFreeL, hx, hb.2]
  | m :: ns, i + 1, x, hb, hx => by
    rw [bannedFreeL, Bool.and_eq_true] at hb
    simp [List.set, bannedFreeL, hb.1, bannedFreeL_set ns i x hb.2 hx]

/-- A child-list rewrite by a banned-free-preserving function keeps the
tree banned-free. -/
theorem bannedFree_setChildrenAt :
    ∀ (pp : List Nat) (f : List DNode → List DNode) (ns : List DNode),
      (∀ cs, bannedFreeL cs = true → bannedFreeL (f cs) = true) →
      bannedFreeL ns = true → bannedFreeL (setChildrenAt pp f ns) = true
  | [], f, ns, hf, hb => by simpa [setChildrenAt] using hf ns hb
  | i :: rest, f, ns, hf, hb => by
    cases h : ns[i]? with
    | none => simpa [setChildrenAt, h] using hb
    | some n =>
      cases n with
      | text s => simpa [setChildrenAt, h] using hb
      | elem t al ats cs =>
        have hn : bannedFreeN (.elem t al ats cs) = true := bannedFreeN_of_getElem ns i _ hb h
        rw [bannedFreeN, Bool.and_eq_true] at hn
        have hrec := bannedFree_setChildrenAt rest f cs hf hn.2
        simp only [setChildrenAt, h]
        exact bannedFreeL_set ns i _ hb (by simp [bannedFreeN, hn.1, hrec])

/-- Replacing text data keeps the tree banned-free. -/
theorem bannedFree_setTextAt :
    ∀ (p : List Nat) (s : String) (ns : List DNode),
      bannedFreeL ns = true → bannedFreeL (setTextAt p s ns) = true
  | [], s, ns, hb => hb
  | [i], s, ns, hb => by
    cases h : ns[i]? with
    | none => simpa [setTextAt, h] using hb
    | some n =>
      cases n with
      | text s0 =>
        simp only [setTextAt, h]
        exact bannedFreeL_set ns i (.text s) hb rfl
      | elem t al ats cs => simpa [setTextAt, h] using hb
  | i :: j :: rest, s, ns, hb => by
    cases h : ns[i]? with
    | none => simpa [setTextAt, h] using hb
    | some n =>
      cases n with
      | text s0 => simpa [setTextAt, h] using hb
      | elem t al ats cs =>
        have hn : bannedFreeN (.elem t al ats cs) = true := bannedFreeN_of_getElem ns i _ hb h
        rw [bannedFreeN, Bool.and_eq_true] at hn
        have hrec := bannedFree_setTextAt (j :: rest) s cs hn.2
        simp only [setTextAt, h]
        exact bannedFreeL_set ns i _ hb (by simp [bannedFreeN, hn.1, hrec])

mutual
/-- Sanitization leaves no stripped tag in a node's replacement. -/
theorem sanitizeN_bannedFree : (n : DNode) → bannedFreeL (sanitizeN n) = true
  | .text s => rfl
  | .elem t al ats cs => by
    by_cases h : isBannedTag t
    · simp [sanitizeN, h, bannedFreeL]
    · simp [sanitizeN, h, bannedFreeL, bannedFreeN, sanitizeL_bannedFree cs]
/-- Sanitization leaves no stripped tag in a list's replacement. -/
theorem sanitizeL_bannedFree : (ns : List DNode) → bannedFreeL (sanitizeL ns) = true
  | [] => rfl
  | n :: ns => by
    simp [sanitizeL, bannedFreeL_append, sanitizeN_bannedFree n, sanitizeL_bannedFree ns]
end

/-- Function `deleteContents` never introduces a stripped tag. -/
theorem bannedFree_deleteContents (ns : List DNode) (r : DRange)
    (hb : bannedFreeL ns = true) : bannedFreeL (deleteContents ns r).1 = true := by
  unfold deleteContents
  by_cases h1 : r.s = r.e
  · simpa [h1] using hb
  · rw [if_neg h1]
    by_cases h2 : r.s.path = r.e.path
    · rw [if_pos h2]
      cases hc : containerAt ns r.s.path with
      | textC s => exact bannedFree_setTextAt _ _ ns hb
      | rootC =>
        refine bannedFree_setChildrenAt _ _ ns (fun cs hcs => ?_) hb
        simp [bannedFreeL_append, bannedFreeL_take cs _ hcs, bannedFreeL_drop cs _ hcs]
      | elemC =>
        refine bannedFree_setChildrenAt _ _ ns (fun cs hcs => ?_) hb
        simp [bannedFreeL_append, bannedFreeL_take cs _ hcs, bannedFreeL_drop cs _ hcs]
      | invalidC => simpa using hb
    · rw [if_neg h2]
      split
      · split
        · split
          · split
            · rename_i x5 x4 bi ci bj cj heq5 heq4 hlt x3 x2 t1 a1 at1 cs1 t2 a2 at2 cs2
                hbi hbj x1 x0 s1 s2 hci hcj
              have hn1 := bannedFreeN_of_getElem ns bi _ hb hbi
              have hn2 := bannedFreeN_of_getElem ns bj _ hb hbj
              rw [bannedFreeN, Bool.and_eq_true] at hn1 hn2
              simp [bannedFreeL_append, bannedFreeL, bannedFreeN,
                bannedFreeL_take ns bi hb, bannedFreeL_drop ns (bj + 1) hb, hn1.1, hn2.1,
                bannedFreeL_take cs1 ci hn1.2, bannedFreeL_drop cs2 (cj + 1) hn2.2]
            · exact hb
          · exact hb
        · exact hb
      · exact hb

/-- Inserting a banned-free fragment keeps the tree banned-free. -/
theorem bannedFree_insertFragAt (ns : List DNode) (pos : Pos) (frag : List DNode)
    (hb : bannedFreeL ns = true) (hf : bannedFreeL frag = true) :
    bannedFreeL (insertFragAt ns pos frag).1 = true := by
  unfold insertFragAt
  cases hc : containerAt ns pos.path with
  | rootC =>
    refine bannedFree_setChildrenAt _ _ ns (fun cs hcs => ?_) hb
    simp [bannedFreeL_append, bannedFreeL_take cs _ hcs, bannedFreeL_drop cs _ hcs, hf]
  | elemC =>
    refine bannedFree_setChildrenAt _ _ ns (fun cs hcs => ?_) hb
    simp [bannedFreeL_append, bannedFreeL_take cs _ hcs, bannedFreeL_drop cs _ hcs, hf]
  | invalidC => exact hb
  | textC s =>
    cases hp : parentAndIdx pos.path with
    | none => exact hb
    | some pti =>
      refine bannedFree_setChildrenAt _ _ ns (fun cs hcs => ?_) hb
      simp [bannedFreeL_append, bannedFreeL_take cs _ hcs, bannedFreeL_drop cs _ hcs, hf,
        bannedFreeL, bannedFreeN]

/-- A `textC` container is a text node at the path. -/
theorem containerAt_textC (ns : List DNode) (p : List Nat) (s : String)
    (h : containerAt ns p = .textC s) : nodeAtL ns p = some (.text s) := by
  cases p with
  | nil => simp [containerAt] at h
  | cons i rest =>
    simp only [containerAt] at h
    cases h' : nodeAtL ns (i :: rest) with
    | none => rw [h'] at h; exact absurd h (by simp)
    | some n =>
      cases n with
      | text s0 =>
        rw [h'] at h
        simp only [ContainerK.textC.injEq] at h
        rw [h]
      | elem t al ats cs => rw [h'] at h; exact absurd h (by simp)

/-- An `elemC` container is an element at the path. -/
theorem containerAt_elemC (ns : List DNode) (p : List Nat)
    (h : containerAt ns p = .elemC) :
    ∃ t al ats cs, nodeAtL ns p = some (.elem t al ats cs) := by
  cases p with
  | nil => simp [containerAt] at h
  | cons i rest =>
    simp only [containerAt] at h
    cases h' : nodeAtL ns (i :: rest) with
    | none => rw [h'] at h; exact absurd h (by simp)
    | some n =>
      cases n with
      | text s0 => rw [h'] at h; exact absurd h (by simp)
      | elem t al ats cs => exact ⟨t, al, ats, cs, rfl⟩

/-- A valid boundary point has a real container. -/
theorem posValid_not_invalid (ns : List DNode) (pos : Pos)
    (h : posValid ns pos = true) : containerAt ns pos.path ≠ .invalidC := by
  intro hc
  rw [posValid, hc] at h
  exact absurd h (by simp)

/-- Evaluation: `deleteContents` on a collapsed range. -/
theorem deleteContents_collapsed (ns : List DNode) (r : DRange) (h : r.s = r.e) :
    deleteContents ns r = (ns, r.s) := by
  unfold deleteContents
  rw [if_pos h]

/-- Evaluation: `deleteContents` within one text node. -/
theorem deleteContents_sameText (ns : List DNode) (r : DRange) (s : String)
    (hne : r.s ≠ r.e) (hpath : r.s.path = r.e.path)
    (hc : containerAt ns r.s.path = .textC s) :
    deleteContents ns r = (setTextAt r.s.path (s.take r.s.off ++ s.drop r.e.off) ns, r.s) := by
  unfold deleteContents
  rw [if_neg hne, if_pos hpath]
  simp only [← hpath, hc]

/-- Evaluation: `deleteContents` within one element's child list. -/
theorem deleteContents_sameElem (ns : List DNode) (r : DRange)
    (hne : r.s ≠ r.e) (hpath : r.s.path = r.e.path)
    (hc : containerAt ns r.s.path = .elemC) :
    deleteContents ns r
      = (setChildrenAt r.s.path (fun cs => cs.take r.s.off ++ cs.drop r.e.off) ns, r.s) := by
  unfold deleteContents
  rw [if_neg hne, if_pos hpath]
  simp only [← hpath, hc]

/-- Evaluation: `deleteContents` within the root's child list. -/
theorem deleteContents_sameRoot (ns : List DNode) (r : DRange)
    (hne : r.s ≠ r.e) (hpath : r.s.path = r.e.path)
    (hc : containerAt ns r.s.path = .rootC) :
    deleteContents ns r
      = (setChildrenAt r.s.path (fun cs => cs.take r.s.off ++ cs.drop r.e.off) ns, r.s) := by
  unfold deleteContents
  rw [if_neg hne, if_pos hpath]
  simp only [← hpath, hc]

/-- Evaluation: `deleteContents` on a range crossing two root-level
blocks. -/
theorem deleteContents_cross (ns : List DNode) (r : DRange)
    (bi ci bj cj : Nat) (t1 : String) (a1 : Option Align)
    (at1 : List (String × String)) (cs1 : List DNode)
    (t2 : String) (a2 : Option Align) (at2 : List (String × String)) (cs2 : List DNode)
    (s1 s2 : String)
    (hs : r.s.path = [bi, ci]) (he : r.e.path = [bj, cj]) (hlt : bi < bj)
    (hbi : ns[bi]? = some (.elem t1 a1 at1 cs1))
    (hbj : ns[bj]? = some (.elem t2 a2 at2 cs2))
    (hci : cs1[ci]? = some (.text s1)) (hcj : cs2[cj]? = some (.text s2)) :
    deleteContents ns r
      = (ns.take bi
          ++ [.elem t1 a1 at1 (cs1.take ci ++ [.text (s1.take r.s.off)]),
              .elem t2 a2 at2 (.text (s2.drop r.e.off) :: cs2.drop (cj + 1))]
          ++ ns.drop (bj + 1),
         ⟨[], bi + 1⟩) := by
  have hpne : r.s.path ≠ r.e.path := by
    rw [hs, he]
    simp
    intro h
    omega
  have hne : r.s ≠ r.e := by
    intro h
    exact hpne (congrArg Pos.path h)
  unfold deleteContents
  rw [if_neg hne, if_neg hpne]
  simp only [hs, he]
  simp only [if_pos hlt, hbi, hbj, hci, hcj]

/-- Evaluation: `insertFragAt` into an element (or root) child list. -/
theorem insertFragAt_elem (ns : List DNode) (pos : Pos) (frag : List DNode)
    (hc : containerAt ns pos.path = .rootC ∨ containerAt ns pos.path = .elemC) :
    insertFragAt ns pos frag
      = (setChildrenAt pos.path (fun cs => cs.take pos.off ++ frag ++ cs.drop pos.off) ns,
         ⟨pos.path, pos.off + frag.length⟩) := by
  unfold insertFragAt
  rcases hc with hc | hc <;> simp only [hc]

/-- Evaluation: `insertFragAt` into a text node. -/
theorem insertFragAt_text (ns : List DNode) (pos : Pos) (frag : List DNode)
    (s : String) (pp : List Nat) (ti : Nat)
    (hc : containerAt ns pos.path = .textC s)
    (hp : parentAndIdx pos.path = some (pp, ti)) :
    insertFragAt ns pos frag
      = (setChildrenAt pp
          (fun cs => cs.take ti
            ++ ([.text (s.take pos.off)] ++ frag ++ [.text (s.drop pos.off)])
            ++ cs.drop (ti + 1)) ns,
         ⟨pp, ti + 1 + frag.length⟩) := by
  unfold insertFragAt
  simp only [hc, hp]

/-- Function `insertFragAt` of a lone text node realizes
`insertedSingleTextRun` whenever the position's container is real. -/
theorem insertFragAt_single_text (ns : List DNode) (pos : Pos) (txt : String)
    (hcont : containerAt ns pos.path ≠ .invalidC) :
    insertedSingleTextRun ns (insertFragAt ns pos [DNode.text txt]).1 txt := by
  cases hc : containerAt ns pos.path with
  | invalidC => exact absurd hc hcont
  | rootC =>
    rw [insertFragAt_elem ns pos _ (Or.inl hc)]
    exact Or.inl ⟨pos.path, pos.off, rfl⟩
  | elemC =>
    rw [insertFragAt_elem ns pos _ (Or.inr hc)]
    exact Or.inl ⟨pos.path, pos.off, rfl⟩
  | textC s =>
    have hne : pos.path ≠ [] := by
      intro h
      rw [h] at hc
      simp [containerAt] at hc
    obtain ⟨pp, ti, hpi⟩ := parentAndIdx_of_ne_nil pos.path hne
    rw [insertFragAt_text ns pos _ s pp ti hc hpi]
    exact Or.inr ⟨pp, ti, pos.off, s, rfl⟩

/-- After deleting a supported range's contents, the collapsed position
still has a real container. -/
theorem deleteContents_container_ok (ns : List DNode) (r : DRange)
    (hsupp : SameContainerShape ns r ∨ CrossBlocksShape ns r) :
    containerAt (deleteContents ns r).1 (deleteContents ns r).2.path ≠ .invalidC := by
  rcases hsupp with ⟨hpath, hoff, hv1, hv2⟩ | hcross
  · by_cases hne : r.s = r.e
    · rw [deleteContents_collapsed ns r hne]
      exact posValid_not_invalid ns r.s hv1
    · cases hc : containerAt ns r.s.path with
      | invalidC => exact absurd hc (posValid_not_invalid ns r.s hv1)
      | rootC =>
        rw [deleteContents_sameRoot ns r hne hpath hc]
        have hroot : r.s.path = [] := containerAt_eq_rootC ns r.s.path hc
        simp [hroot, containerAt]
      | textC s =>
        rw [deleteContents_sameText ns r s hne hpath hc]
        have hn := containerAt_textC ns r.s.path s hc
        have h2 := nodeAtL_setTextAt_self r.s.path ns s
          (s.take r.s.off ++ s.drop r.e.off) hn
        cases hp : r.s.path with
        | nil => rw [hp] at hc; simp [containerAt] at hc
        | cons i rest =>
          rw [hp] at h2
          simp [containerAt, hp, h2]
      | elemC =>
        rw [deleteContents_sameElem ns r hne hpath hc]
        obtain ⟨t, al, ats, cs, hn⟩ := containerAt_elemC ns r.s.path hc
        have h2 := nodeAtL_setChildrenAt_self r.s.path ns t al ats cs
          (fun cs => cs.take r.s.off ++ cs.drop r.e.off) hn
        cases hp : r.s.path with
        | nil => rw [hp] at hc; simp [containerAt] at hc
        | cons i rest =>
          rw [hp] at h2
          simp [containerAt, hp, h2]
  · obtain ⟨bi, ci, bj, cj, t1, a1, at1, cs1, t2, a2, at2, cs2, s1, s2,
      hs, he, hlt, hbi, hbj, hci, hcj, ho1, ho2⟩ := hcross
    rw [deleteContents_cross ns r bi ci bj cj t1 a1 at1 cs1 t2 a2 at2 cs2 s1 s2
      hs he hlt hbi hbj hci hcj]
    simp [containerAt]

/-- Claim C7: pasting over any supported selection into a document free
of script/style/iframe/object/embed leaves the document free of those
node kinds (rich markup is sanitized before insertion); rich markup is
inserted exactly as the sanitized fragment; plain-text-only clipboard
data is inserted as a single unstyled text run (and that path completes
without a DOM exception). -/
theorem handlePaste_sanitizes_and_plain (pf : String → List DNode) (st : EditorState)
    (html txt : String) (r : DRange)
    (hsel : st.sel = some r)
    (hsupp : SameContainerShape st.tree r ∨ CrossBlocksShape st.tree r)
    (hclean : bannedFreeL st.tree = true) :
    bannedFreeL (handlePaste pf st html txt).st.tree = true ∧
    (jsTrim html ≠ "" →
      (handlePaste pf st html txt).st.tree
        = (insertFragAt (deleteContents st.tree r).1 (deleteContents st.tree r).2
            (sanitizeL (pf html))).1) ∧
    (jsTrim html = "" → txt ≠ "" →
      (handlePaste pf st html txt).threw = false ∧
      insertedSingleTextRun (deleteContents st.tree r).1
        (handlePaste pf st html txt).st.tree txt) := by
  have hdel : bannedFreeL (deleteContents st.tree r).1 = true :=
    bannedFree_deleteContents st.tree r hclean
  have hcont := deleteContents_container_ok st.tree r hsupp
  by_cases hh : jsTrim html = ""
  · by_cases ht : txt = ""
    · refine ⟨?_, fun hcon => absurd hh hcon, fun _ hcon => absurd ht hcon⟩
      simpa [handlePaste, hsel, hh, ht, handleInput] using hdel
    · refine ⟨?_, fun hcon => absurd hh hcon, fun _ _ => ⟨?_, ?_⟩⟩
      · have hins := bannedFree_insertFragAt (deleteContents st.tree r).1
          (deleteContents st.tree r).2 [DNode.text txt] hdel rfl
        simpa [handlePaste, hsel, hh, ht, handleInput] using hins
      · simp [handlePaste, hsel, hh, ht]
      · have hstr := insertFragAt_single_text (deleteContents st.tree r).1
          (deleteContents st.tree r).2 txt hcont
        simpa [handlePaste, hsel, hh, ht, handleInput] using hstr
  · refine ⟨?_, fun _ => ?_, fun hcon => absurd hcon hh⟩
    · have hins := bannedFree_insertFragAt (deleteContents st.tree r).1
        (deleteContents st.tree r).2 (sanitizeL (pf html)) hdel
        (sanitizeL_bannedFree (pf html))
      simpa [handlePaste, hsel, hh] using hins
    · simp [handlePaste, hsel, hh]

/-- Witness for claim C7: plain-text-only clipboard data pasted at a
caret inside the text `abc`. -/
theorem handlePaste_sanitizes_and_plain_witness :
    bannedFreeL (handlePaste exParsePaste exStAbc "" "xy").st.tree = true ∧
    (jsTrim "" ≠ "" →
      (handlePaste exParsePaste exStAbc "" "xy").st.tree
        = (insertFragAt (deleteContents exStAbc.tree (caretAt [0] 1)).1
            (deleteContents exStAbc.tree (caretAt [0] 1)).2
            (sanitizeL (exParsePaste ""))).1) ∧
    (jsTrim "" = "" → "xy" ≠ "" →
      (handlePaste exParsePaste exStAbc "" "xy").threw = false ∧
      insertedSingleTextRun (deleteContents exStAbc.tree (caretAt [0] 1)).1
        (handlePaste exParsePaste exStAbc "" "xy").st.tree "xy") :=
  handlePaste_sanitizes_and_plain exParsePaste exStAbc "" "xy" (caretAt [0] 1)
    rfl (Or.inl ⟨rfl, Nat.le_refl 1, by decide, by decide⟩) rfl

/-- Extracts the offset bound of a valid root-container point. -/
theorem posValid_rootC (ns : List DNode) (p : Pos)
    (hc : containerAt ns p.path = .rootC) (hv : posValid ns p = true) :
    p.off ≤ ns.length := by
  rw [posValid, hc] at hv
  exact of_decide_eq_true hv

/-- Extracts the offset bound of a valid text-container point. -/
theorem posValid_textC (ns : List DNode) (p : Pos) (s : String)
    (hc : containerAt ns p.path = .textC s) (hv : posValid ns p = true) :
    p.off ≤ s.length := by
  rw [posValid, hc] at hv
  exact of_decide_eq_true hv

/-- Extracts the offset bound of a valid element-container point. -/
theorem posValid_elemC (ns : List DNode) (p : Pos)
    (t : String) (al : Option Align) (ats : List (String × String)) (cs : List DNode)
    (hc : containerAt ns p.path = .elemC)
    (hn : nodeAtL ns p.path = some (.elem t al ats cs)) (hv : posValid ns p = true) :
    p.off ≤ cs.length := by
  rw [posValid, hc, hn] at hv
  exact of_decide_eq_true hv

/-- Evaluation: `surroundContents` within the root's child list. -/
theorem surround_rootC (ns : List DNode) (r : DRange) (tag : String) (al : Option Align)
    (ats : List (String × String))
    (hpath : r.s.path = r.e.path) (hc : containerAt ns r.s.path = .rootC) :
    surroundContents ns r tag al ats
      = some (ns.take r.s.off ++ [.elem tag al ats ((ns.take r.e.off).drop r.s.off)]
                ++ ns.drop r.e.off,
              ⟨[], r.s.off + 1⟩) := by
  unfold surroundContents
  rw [if_pos hpath]
  simp only [hc]

/-- Evaluation: `surroundContents` within one text node. -/
theorem surround_textC (ns : List DNode) (r : DRange) (tag : String) (al : Option Align)
    (ats : List (String × String)) (s : String) (pp : List Nat) (ti : Nat)
    (hpath : r.s.path = r.e.path) (hc : containerAt ns r.s.path = .textC s)
    (hp : parentAndIdx r.s.path = some (pp, ti)) :
    surroundContents ns r tag al ats
      = some (setChildrenAt pp
          (fun cs => cs.take ti
            ++ [.text (s.take r.s.off),
                .elem tag al ats [.text ((s.take r.e.off).drop r.s.off)],
                .text (s.drop r.e.off)]
            ++ cs.drop (ti + 1)) ns,
         ⟨pp, ti + 2⟩) := by
  unfold surroundContents
  rw [if_pos hpath]
  simp only [hc, hp]

/-- Evaluation: `surroundContents` within one element's child list. -/
theorem surround_elemC (ns : List DNode) (r : DRange) (tag : String) (al : Option Align)
    (ats : List (String × String))
    (hpath : r.s.path = r.e.path) (hc : containerAt ns r.s.path = .elemC) :
    surroundContents ns r tag al ats
      = some (setChildrenAt r.s.path
          (fun cs => cs.take r.s.off
            ++ [.elem tag al ats ((cs.take r.e.off).drop r.s.off)]
            ++ cs.drop r.e.off) ns,
         ⟨r.s.path, r.s.off + 1⟩) := by
  unfold surroundContents
  rw [if_pos hpath]
  simp only [hc]

/-- Function `surroundContents` throws (yields `none`) when the boundary points
have different containers. -/
theorem surround_crossPath (ns : List DNode) (r : DRange) (tag : String) (al : Option Align)
    (ats : List (String × String)) (hpath : r.s.path ≠ r.e.path) :
    surroundContents ns r tag al ats = none := by
  unfold surroundContents
  rw [if_neg hpath]

/-- Evaluation: the content of a range within one text node. -/
theorem rangeContents_sameText (ns : List DNode) (r : DRange) (s : String)
    (hne : r.s ≠ r.e) (hpath : r.s.path = r.e.path)
    (hc : containerAt ns r.s.path = .textC s) :
    rangeContents ns r = [.text ((s.take r.e.off).drop r.s.off)] := by
  unfold rangeContents
  rw [if_neg hne, if_pos hpath]
  simp only [← hpath, hc]

/-- Evaluation: the content of a range within the root's child list. -/
theorem rangeContents_sameRoot (ns : List DNode) (r : DRange)
    (hne : r.s ≠ r.e) (hpath : r.s.path = r.e.path)
    (hc : containerAt ns r.s.path = .rootC) :
    rangeContents ns r = (ns.take r.e.off).drop r.s.off := by
  unfold rangeContents
  rw [if_neg hne, if_pos hpath]
  simp only [← hpath, hc]

/-- Evaluation: the content of a range within one element's child list. -/
theorem rangeContents_sameElem (ns : List DNode) (r : DRange)
    (t : String) (al : Option Align) (ats : List (String × String)) (cs : List DNode)
    (hne : r.s ≠ r.e) (hpath : r.s.path = r.e.path)
    (hc : containerAt ns r.s.path = .elemC)
    (hn : nodeAtL ns r.s.path = some (.elem t al ats cs)) :
    rangeContents ns r = (cs.take r.e.off).drop r.s.off := by
  unfold rangeContents
  rw [if_neg hne, if_pos hpath]
  simp only [← hpath, hc, hn]

/-- Indexing the single node spliced between two list parts. -/
theorem getElem?_middle (a b : List DNode) (x : DNode) (i : Nat) (h : a.length = i) :
    (a ++ [x] ++ b)[i]? = some x := by
  subst h
  rw [List.append_assoc, List.getElem?_append_right (Nat.le_refl _)]
  simp

/-- Indexing the middle of three nodes spliced between two list parts. -/
theorem getElem?_middle3 (a b : List DNode) (x y z : DNode) (i : Nat) (h : a.length = i) :
    (a ++ [x, y, z] ++ b)[i + 1]? = some y := by
  subst h
  rw [List.append_assoc, List.getElem?_append_right (by omega)]
  simp

/-- Claim C6 (amended: in the successful-wrap case the link's content is
exactly the wrapped range content, discarding the preset display text;
the display text — defaulting to the URL when blank — appears when the
wrap fails): for a trim-non-empty URL and a non-collapsed supported
range, `insertLink` produces a link element whose content is the
range's extracted content when the range sits in one container
(wrappable), and falls back to deleting the range's contents and
inserting the standalone link (carrying the default display text) when
the range crosses block boundaries; in both cases the caret lands
immediately after the link. -/
theorem insertLink_nonempty_range (ui : LinkUI) (st : EditorState) (r : DRange)
    (hurl : jsTrim ui.linkUrl ≠ "") (hsel : st.sel = some r) (hncol : r.s ≠ r.e)
    (hsupp : SameContainerShape st.tree r ∨ CrossBlocksShape st.tree r) :
    ∃ pp li cnt,
      nodeAtL (insertLink ui st).2.1.tree (pp ++ [li])
        = some (.elem "a" none (linkAttrs ui.linkUrl) cnt) ∧
      (insertLink ui st).2.1.sel = some (caretAt pp (li + 1)) ∧
      (SameContainerShape st.tree r → cnt = rangeContents st.tree r) ∧
      (CrossBlocksShape st.tree r →
        cnt = [.text (linkDisplay ui)] ∧
        (insertLink ui st).2.1.tree
          = (insertFragAt (deleteContents st.tree r).1 (deleteContents st.tree r).2
              [linkNode ui]).1) := by
  have hcolF : r.collapsed = false := by
    simp [DRange.collapsed, hncol]
  rcases hsupp with hsame | hcross
  · obtain ⟨hpath, hoff, hv1, hv2⟩ := hsame
    have hnotcross : ¬ CrossBlocksShape st.tree r := by
      rintro ⟨bi, ci, bj, cj, t1, a1, at1, cs1, t2, a2, at2, cs2, s1, s2,
        hs, he, hlt, -⟩
      rw [hs, he] at hpath
      simp at hpath
      omega
    cases hc : containerAt st.tree r.s.path with
    | invalidC => exact absurd hc (posValid_not_invalid st.tree r.s hv1)
    | rootC =>
      have hle : r.s.off ≤ st.tree.length := posValid_rootC st.tree r.s hc hv1
      have hsur := surround_rootC st.tree r "a" none (linkAttrs ui.linkUrl) hpath hc
      have hT : (insertLink ui st).2.1.tree
          = st.tree.take r.s.off
              ++ [.elem "a" none (linkAttrs ui.linkUrl) ((st.tree.take r.e.off).drop r.s.off)]
              ++ st.tree.drop r.e.off := by
        simp [insertLink, hurl, hsel, hcolF, hsur, handleInput]
      have hS : (insertLink ui st).2.1.sel = some (caretAt [] (r.s.off + 1)) := by
        simp [insertLink, hurl, hsel, hcolF, hsur, handleInput]
      refine ⟨[], r.s.off, (st.tree.take r.e.off).drop r.s.off, ?_, hS, ?_, ?_⟩
      · rw [hT, List.nil_append, nodeAtL_single]
        exact getElem?_middle _ _ _ _ (by simp [List.length_take, Nat.min_eq_left hle])
      · intro _
        rw [rangeContents_sameRoot st.tree r hncol hpath hc]
      · intro hcon
        exact absurd hcon hnotcross
    | textC s =>
      have hn := containerAt_textC st.tree r.s.path s hc
      have hle : r.s.off ≤ s.length := posValid_textC st.tree r.s s hc hv1
      have hnil : r.s.path ≠ [] := by
        intro h
        rw [h] at hc
        simp [containerAt] at hc
      obtain ⟨pp, ti, hp⟩ := parentAndIdx_of_ne_nil r.s.path hnil
      have hdecomp : r.s.path = pp ++ [ti] := parentAndIdx_spec _ _ _ hp
      have hbind := nodeAtL_append_last pp st.tree ti
      rw [← hdecomp, hn] at hbind
      cases hch : childrenAt pp st.tree with
      | none => rw [hch] at hbind; simp at hbind
      | some cs =>
        rw [hch] at hbind
        have hcs : cs[ti]? = some (.text s) := by simpa using hbind.symm
        have hti : ti < cs.length := (List.getElem?_eq_some_iff.1 hcs).1
        have hsur := surround_textC st.tree r "a" none (linkAttrs ui.linkUrl) s pp ti
          hpath hc hp
        have hT : (insertLink ui st).2.1.tree
            = setChildrenAt pp
                (fun cs => cs.take ti
                  ++ [.text (s.take r.s.off),
                      .elem "a" none (linkAttrs ui.linkUrl)
                        [.text ((s.take r.e.off).drop r.s.off)],
                      .text (s.drop r.e.off)]
                  ++ cs.drop (ti + 1)) st.tree := by
          simp [insertLink, hurl, hsel, hcolF, hsur, handleInput]
        have hS : (insertLink ui st).2.1.sel = some (caretAt pp (ti + 2)) := by
          simp [insertLink, hurl, hsel, hcolF, hsur, handleInput]
        refine ⟨pp, ti + 1, [.text ((s.take r.e.off).drop r.s.off)], ?_, hS, ?_, ?_⟩
        · rw [hT, nodeAtL_setChildrenAt pp st.tree cs _ (ti + 1) hch]
          exact getElem?_middle3 _ _ _ _ _ _
            (by simp [List.length_take, Nat.min_eq_left (Nat.le_of_lt hti)])
        · intro _
          rw [rangeContents_sameText st.tree r s hncol hpath hc]
        · intro hcon
          exact absurd hcon hnotcross
    | elemC =>
      obtain ⟨t, al, ats, cs, hn⟩ := containerAt_elemC st.tree r.s.path hc
      have hle : r.s.off ≤ cs.length := posValid_elemC st.tree r.s t al ats cs hc hn hv1
      have hch : childrenAt r.s.path st.tree = some cs :=
        childrenAt_of_nodeAtL r.s.path st.tree t al ats cs hn
      have hsur := surround_elemC st.tree r "a" none (linkAttrs ui.linkUrl) hpath hc
      have hT : (insertLink ui st).2.1.tree
          = setChildrenAt r.s.path
              (fun cs => cs.take r.s.off
                ++ [.elem "a" none (linkAttrs ui.linkUrl) ((cs.take r.e.off).drop r.s.off)]
                ++ cs.drop r.e.off) st.tree := by
        simp [insertLink, hurl, hsel, hcolF, hsur, handleInput]
      have hS : (insertLink ui st).2.1.sel = some (caretAt r.s.path (r.s.off + 1)) := by
        simp [insertLink, hurl, hsel, hcolF, hsur, handleInput]
      refine ⟨r.s.path, r.s.off, (cs.take r.e.off).drop r.s.off, ?_, hS, ?_, ?_⟩
      · rw [hT, nodeAtL_setChildrenAt r.s.path st.tree cs _ r.s.off hch]
        exact getElem?_middle _ _ _ _ (by simp [List.length_take, Nat.min_eq_left hle])
      · intro _
        rw [rangeContents_sameElem st.tree r t al ats cs hncol hpath hc hn]
      · intro hcon
        exact absurd hcon hnotcross
  · obtain ⟨bi, ci, bj, cj, t1, a1, at1, cs1, t2, a2, at2, cs2, s1, s2,
      hs, he, hlt, hbi, hbj, hci, hcj, ho1, ho2⟩ := hcross
    have hpne : r.s.path ≠ r.e.path := by
      rw [hs, he]
      simp
      intro h
      omega
    have hnotsame : ¬ SameContainerShape st.tree r := fun hsm => hpne hsm.1
    have hsur := surround_crossPath st.tree r "a" none (linkAttrs ui.linkUrl) hpne
    have hdel := deleteContents_cross st.tree r bi ci bj cj t1 a1 at1 cs1 t2 a2 at2 cs2
      s1 s2 hs he hlt hbi hbj hci hcj
    have hlen1 : bi < st.tree.length := (List.getElem?_eq_some_iff.1 hbi).1
    have hT : (insertLink ui st).2.1.tree
        = (insertFragAt (deleteContents st.tree r).1 (deleteContents st.tree r).2
            [linkNode ui]).1 := by
      simp [insertLink, hurl, hsel, hcolF, hsur, handleInput]
    have hins := insertFragAt_elem (deleteContents st.tree r).1 (deleteContents st.tree r).2
      [linkNode ui] (by rw [hdel]; exact Or.inl rfl)
    have hT2 : (insertLink ui st).2.1.tree
        = (st.tree.take bi
            ++ [DNode.elem t1 a1 at1 (cs1.take ci ++ [DNode.text (s1.take r.s.off)]),
                DNode.elem t2 a2 at2 (DNode.text (s2.drop r.e.off) :: cs2.drop (cj + 1))]
            ++ st.tree.drop (bj + 1)).take (bi + 1)
          ++ [linkNode ui]
          ++ (st.tree.take bi
            ++ [DNode.elem t1 a1 at1 (cs1.take ci ++ [DNode.text (s1.take r.s.off)]),
                DNode.elem t2 a2 at2 (DNode.text (s2.drop r.e.off) :: cs2.drop (cj + 1))]
            ++ st.tree.drop (bj + 1)).drop (bi + 1) := by
      rw [hT, hins, hdel]
      rfl
    have hS : (insertLink ui st).2.1.sel = some (caretAt [] (bi + 1 + 1)) := by
      have h1 : (insertLink ui st).2.1.sel
          = some (caretAt
              (insertFragAt (deleteContents st.tree r).1
                (deleteContents st.tree r).2 [linkNode ui]).2.path
              (insertFragAt (deleteContents st.tree r).1
                (deleteContents st.tree r).2 [linkNode ui]).2.off) := by
        simp [insertLink, hurl, hsel, hcolF, hsur, handleInput]
      rw [h1, hins, hdel]
      rfl
    refine ⟨[], bi + 1, [.text (linkDisplay ui)], ?_, hS, fun hcon => absurd hcon hnotsame,
      fun _ => ⟨rfl, hT⟩⟩
    rw [hT2, List.nil_append, nodeAtL_single]
    have hlen2 : bi + 1
        ≤ (st.tree.take bi
            ++ [DNode.elem t1 a1 at1 (cs1.take ci ++ [DNode.text (s1.take r.s.off)]),
                DNode.elem t2 a2 at2 (DNode.text (s2.drop r.e.off) :: cs2.drop (cj + 1))]
            ++ st.tree.drop (bj + 1)).length := by
      simp [List.length_append, List.length_take, Nat.min_eq_left (Nat.le_of_lt hlen1)]
    exact getElem?_middle _ _ _ _ (by simp [List.length_take]; omega)

/-- Witness for (amended) claim C6: the whole text `hi` selected inside
one text node, URL `u`, blank display text. -/
theorem insertLink_nonempty_range_witness :
    ∃ pp li cnt,
      nodeAtL (insertLink exUiBlank exStHi).2.1.tree (pp ++ [li])
        = some (.elem "a" none (linkAttrs exUiBlank.linkUrl) cnt) ∧
      (insertLink exUiBlank exStHi).2.1.sel = some (caretAt pp (li + 1)) ∧
      (SameContainerShape exStHi.tree ⟨⟨[0], 0⟩, ⟨[0], 2⟩⟩ →
        cnt = rangeContents exStHi.tree ⟨⟨[0], 0⟩, ⟨[0], 2⟩⟩) ∧
      (CrossBlocksShape exStHi.tree ⟨⟨[0], 0⟩, ⟨[0], 2⟩⟩ →
        cnt = [.text (linkDisplay exUiBlank)] ∧
        (insertLink exUiBlank exStHi).2.1.tree
          = (insertFragAt (deleteContents exStHi.tree ⟨⟨[0], 0⟩, ⟨[0], 2⟩⟩).1
              (deleteContents exStHi.tree ⟨⟨[0], 0⟩, ⟨[0], 2⟩⟩).2
              [linkNode exUiBlank]).1) :=
  insertLink_nonempty_range exUiBlank exStHi ⟨⟨[0], 0⟩, ⟨[0], 2⟩⟩
    (by decide) rfl (by decide)
    (Or.inl ⟨rfl, by decide, by decide, by decide⟩)

/-- Counterexample to claim C6 as stated: with a blank display text the
claim demands the link's display text default to the URL, but in the
successful-wrap case `surroundContents` discards the preset text and the
link carries the wrapped selection (`hi`), which differs from the URL
(`u`). -/
theorem insertLink_wrap_discards_display_text :
    jsTrim exUiBlank.linkText = "" ∧
    nodeAtL (insertLink exUiBlank exStHi).2.1.tree [1]
      = some (.elem "a" none (linkAttrs "u") [.text "hi"]) ∧
    ("hi" : String) ≠ exUiBlank.linkUrl :=
  ⟨rfl, rfl, by decide⟩
